import Mathlib

set_option maxHeartbeats 1000000
set_option maxRecDepth 100000

/-!
Shallow embedding of the allocation engine of src/study_planner.py.

Python integers are modelled as Int.  Python floor division a // b is
Int ediv `/` here, which agrees with floor division for the positive
divisors used by the code.  The per-day table per_day (a Python list of
dicts with keys learn, exo, review, mock) is a List DayAlloc; indexing
per_day[d] becomes getD d.toNat, and mutation becomes List.set.
-/

/-- The four buckets of one day: Python `dict(learn=0, exo=0, review=0, mock=0)`
(study_planner.py line 215). -/
structure DayAlloc where
  learn : Int
  exo : Int
  review : Int
  mock : Int
deriving DecidableEq, Repr

/-- The bucket keys `"learn" | "exo" | "review" | "mock"`. -/
inductive Kind where
  | learn : Kind
  | exo : Kind
  | review : Kind
  | mock : Kind
deriving DecidableEq, Repr

/-- A fresh day: all four buckets zero. -/
def zeroAlloc : DayAlloc := ⟨0, 0, 0, 0⟩

/-- Read one bucket: Python `per_day[d][kind]`. -/
def DayAlloc.get (a : DayAlloc) : Kind → Int
  | Kind.learn => a.learn
  | Kind.exo => a.exo
  | Kind.review => a.review
  | Kind.mock => a.mock

/-- Add to one bucket: Python `per_day[d][kind] += m`. -/
def DayAlloc.add (a : DayAlloc) (k : Kind) (m : Int) : DayAlloc :=
  match k with
  | Kind.learn => ⟨a.learn + m, a.exo, a.review, a.mock⟩
  | Kind.exo => ⟨a.learn, a.exo + m, a.review, a.mock⟩
  | Kind.review => ⟨a.learn, a.exo, a.review + m, a.mock⟩
  | Kind.mock => ⟨a.learn, a.exo, a.review, a.mock + m⟩

/-- Python `sum(per_day[d].values())`. -/
def daySum (a : DayAlloc) : Int := a.learn + a.exo + a.review + a.mock

/-- Constraints dataclass (study_planner.py lines 48-53).  Optional
blocked_days with `None` is modelled as the empty list, which is faithful
because the code reads it as `set(constraints.blocked_days or [])`. -/
structure Constraints where
  days_available : Int
  max_minutes_per_day : Int
  min_minutes_per_day : Int
  blocked_days : List Int
deriving DecidableEq, Repr

/-- PlanItem dataclass (study_planner.py lines 55-62).  The engine rounds
each bucket with `int(round(...))`, the identity on the ints produced here,
and we model runs without a start date, so `date` is always `none`. -/
structure PlanItem where
  day_index : Int
  date : Option String
  learn_min : Int
  exercises_min : Int
  review_min : Int
  mock_min : Int
deriving DecidableEq, Repr

/-- Sum of the four buckets of one result row. -/
def itemTotal (p : PlanItem) : Int :=
  p.learn_min + p.exercises_min + p.review_min + p.mock_min

/-- The helper `push` (study_planner.py lines 218-233): walk `order`,
skip blocked days, skip days with no remaining capacity, place
`min(cap, remaining)` minutes of `kind` on each other day, stopping as
soon as the remainder reaches zero; return the updated table and the
unplaced remainder. -/
def push (b : List Int) (maxd : Int) (k : Kind) (r : Int) (o : List Int)
    (t : List DayAlloc) : List DayAlloc × Int :=
  match o with
  | [] => (t, r)
  | d :: ds =>
    if d ∈ b then push b maxd k r ds t
    else if maxd - daySum (t.getD d.toNat zeroAlloc) ≤ 0 then push b maxd k r ds t
    else if r - min (maxd - daySum (t.getD d.toNat zeroAlloc)) r ≤ 0 then
      (t.set d.toNat ((t.getD d.toNat zeroAlloc).add k
          (min (maxd - daySum (t.getD d.toNat zeroAlloc)) r)),
        r - min (maxd - daySum (t.getD d.toNat zeroAlloc)) r)
    else
      push b maxd k (r - min (maxd - daySum (t.getD d.toNat zeroAlloc)) r) ds
        (t.set d.toNat ((t.getD d.toNat zeroAlloc).add k
          (min (maxd - daySum (t.getD d.toNat zeroAlloc)) r)))

/-- One placement pass: `rem = push(kind, minutes, order)` followed by
`if rem > 0: push(kind, rem, spillOrder)` (the pattern of study_planner.py
lines 240-249 and 290-292; for review waves the spill order is `days_idx`
itself, lines 282-284). -/
def planPass (b : List Int) (maxd : Int) (k : Kind) (minutes : Int)
    (order spillOrder : List Int) (t : List DayAlloc) : List DayAlloc :=
  if 0 < (push b maxd k minutes order t).2 then
    (push b maxd k (push b maxd k minutes order t).2 spillOrder
      (push b maxd k minutes order t).1).1
  else (push b maxd k minutes order t).1

/-- Python `days_idx = list(range(D))` (line 236). -/
def daysIdxOf (D : Int) : List Int :=
  (List.range D.toNat).map (fun (n : Nat) => (n : Int))

/-- Python `days_idx[::-1]`. -/
def daysRevOf (D : Int) : List Int := (daysIdxOf D).reverse

/-- Python `last_40 = set(days_idx[int(D*0.6):]) if D > 1 else set([0])`
(line 237).  For every day count reachable here, the float truncation
`int(D*0.6)` equals floor(3*D/5): the IEEE double 0.6 is 3/5*(1-eps) with
relative error below 2^-54, so D*0.6 rounds to a value whose truncation is
floor(3*D/5) for all D far below 2^52. -/
def last40Of (D : Int) : List Int :=
  if 1 < D then (daysIdxOf D).drop ((3 * D) / 5).toNat else [0]

/-- Python `order_mock = [d for d in days_idx if d in last_40]` with the
fallback `if not order_mock: order_mock = days_idx` (lines 287-289). -/
def mockOrderOf (D : Int) : List Int :=
  if (daysIdxOf D).filter (fun d => decide (d ∈ last40Of D)) = [] then daysIdxOf D
  else (daysIdxOf D).filter (fun d => decide (d ∈ last40Of D))

/-- Python `order_exo = list(range(D//3, D)) if D >= 3 else days_idx`
(line 246). -/
def exoOrderOf (D : Int) : List Int :=
  if 3 ≤ D then (daysIdxOf D).drop (D / 3).toNat else daysIdxOf D

/-- The wave anchors (lines 253-261): `[1]` appended when `D >= 2`, `[3]`
when `D >= 4`, `[7]` when `D >= 8` (each clamped by `min(_, D-1)`), with
fallback `[[0]]` when empty.  Each Python wave is a singleton list of which
only element 0 is read, so waves are modelled as their anchor days. -/
def reviewWaves (D : Int) : List Int :=
  if ((if 2 ≤ D then [min 1 (D - 1)] else [])
      ++ (if 4 ≤ D then [min 3 (D - 1)] else [])
      ++ (if 8 ≤ D then [min 7 (D - 1)] else [])) = [] then [0]
  else
    (if 2 ≤ D then [min 1 (D - 1)] else [])
      ++ (if 4 ≤ D then [min 3 (D - 1)] else [])
      ++ (if 8 ≤ D then [min 7 (D - 1)] else [])

/-- Python `share = review_min // len(waves)` (line 263). -/
def waveShare (review_min W : Int) : Int := review_min / W

/-- Python `minutes = share + (1 if i < spill else 0)` with
`spill = review_min - share * len(waves)` (lines 264, 279). -/
def waveMinutes (review_min W : Int) (i : Nat) : Int :=
  waveShare review_min W
    + (if (i : Int) < review_min - waveShare review_min W * W then 1 else 0)

/-- The helper `around` (lines 266-276): `[max(0, day-1), day, min(D-1, day+1)]`
with duplicates removed keeping the first occurrence. -/
def around (D : Int) (day : Int) : List Int :=
  [max 0 (day - 1)]
    ++ (if day = max 0 (day - 1) then [] else [day])
    ++ (if min (D - 1) (day + 1) = max 0 (day - 1)
          ∨ min (D - 1) (day + 1) = day then []
        else [min (D - 1) (day + 1)])

/-- The review pass (lines 278-284): for each wave in order, push its share
into the 3-day window around its anchor, spilling any remainder over all
days in forward order. -/
def reviewPass (b : List Int) (maxd review_min D : Int) (t : List DayAlloc) :
    List DayAlloc :=
  ((reviewWaves D).enum).foldl
    (fun tt iw =>
      planPass b maxd Kind.review
        (waveMinutes review_min ((reviewWaves D).length : Int) iw.1)
        (around D iw.2) (daysIdxOf D) tt)
    t

/-- One transfer step of the rebalancing pass (lines 311-314):
`move = min(per_day[s][k], need); per_day[s][k] -= move;
per_day[d][k] += move; need -= move`. -/
def pull1 (t : List DayAlloc) (s d : Int) (k : Kind) (need : Int) :
    List DayAlloc × Int :=
  ((t.set s.toNat ((t.getD s.toNat zeroAlloc).add k
        (-(min ((t.getD s.toNat zeroAlloc).get k) need)))).set d.toNat
      (((t.set s.toNat ((t.getD s.toNat zeroAlloc).add k
        (-(min ((t.getD s.toNat zeroAlloc).get k) need)))).getD d.toNat
          zeroAlloc).add k (min ((t.getD s.toNat zeroAlloc).get k) need)),
    need - min ((t.getD s.toNat zeroAlloc).get k) need)

/-- The inner bucket loop of the rebalancing pass (lines 310-316):
`for k in ["review", "exo", "learn", "mock"]`, breaking once the need is
covered. -/
def pullKinds (s d : Int) : List Kind → List DayAlloc → Int → List DayAlloc × Int
  | [], t, need => (t, need)
  | k :: ks, t, need =>
    if (pull1 t s d k need).2 ≤ 0 then pull1 t s d k need
    else pullKinds s d ks (pull1 t s d k need).1 (pull1 t s d k need).2

/-- The donor scan of the rebalancing pass (lines 304-318): donors in
`reversed(days_idx)`, skipping `s == d`; a donor is eligible when
`src_sum - need >= mind or src_sum > mind + 60`; stop once the need is
covered. -/
def donorScan (mind : Int) (scan : List Int) (t : List DayAlloc) (d : Int)
    (need : Int) : List DayAlloc :=
  match scan with
  | [] => t
  | s :: ss =>
    if s = d then donorScan mind ss t d need
    else
      if (if mind ≤ daySum (t.getD s.toNat zeroAlloc) - need
            ∨ mind + 60 < daySum (t.getD s.toNat zeroAlloc)
          then pullKinds s d [Kind.review, Kind.exo, Kind.learn, Kind.mock] t need
          else (t, need)).2 ≤ 0 then
        (if mind ≤ daySum (t.getD s.toNat zeroAlloc) - need
            ∨ mind + 60 < daySum (t.getD s.toNat zeroAlloc)
         then pullKinds s d [Kind.review, Kind.exo, Kind.learn, Kind.mock] t need
         else (t, need)).1
      else
        donorScan mind ss
          (if mind ≤ daySum (t.getD s.toNat zeroAlloc) - need
              ∨ mind + 60 < daySum (t.getD s.toNat zeroAlloc)
           then pullKinds s d [Kind.review, Kind.exo, Kind.learn, Kind.mock] t need
           else (t, need)).1
          d
          (if mind ≤ daySum (t.getD s.toNat zeroAlloc) - need
              ∨ mind + 60 < daySum (t.getD s.toNat zeroAlloc)
           then pullKinds s d [Kind.review, Kind.exo, Kind.learn, Kind.mock] t need
           else (t, need)).2

/-- One step of the outer rebalancing loop (lines 295-318): skip blocked
days, days with zero total and days already at the floor; otherwise run the
donor scan for the missing `mind - day_sum` minutes. -/
def rebalanceStep (b : List Int) (mind : Int) (scanRev : List Int)
    (t : List DayAlloc) (d : Int) : List DayAlloc :=
  if d ∈ b then t
  else if daySum (t.getD d.toNat zeroAlloc) = 0 then t
  else if daySum (t.getD d.toNat zeroAlloc) < mind then
    donorScan mind scanRev t d (mind - daySum (t.getD d.toNat zeroAlloc))
  else t

/-- The full rebalancing pass: the outer loop `for d in days_idx` with the
donor scan over `reversed(days_idx)`. -/
def rebalance (b : List Int) (mind : Int) (days_idx : List Int)
    (t : List DayAlloc) : List DayAlloc :=
  days_idx.foldl (rebalanceStep b mind days_idx.reverse) t

/-- The table after the learning, exercise and review passes
(study_planner.py lines 239-284), before the mock pass. -/
def preMockTable (learn_min exo_min review_min : Int) (c : Constraints) :
    List DayAlloc :=
  reviewPass c.blocked_days c.max_minutes_per_day review_min c.days_available
    (planPass c.blocked_days c.max_minutes_per_day Kind.exo exo_min
      (exoOrderOf c.days_available) (daysRevOf c.days_available)
      (planPass c.blocked_days c.max_minutes_per_day Kind.learn learn_min
        (daysIdxOf c.days_available) (daysRevOf c.days_available)
        (List.replicate c.days_available.toNat zeroAlloc)))

/-- The table after all four placement passes (lines 239-292). -/
def passesTable (learn_min exo_min review_min mock_min : Int)
    (c : Constraints) : List DayAlloc :=
  planPass c.blocked_days c.max_minutes_per_day Kind.mock mock_min
    (mockOrderOf c.days_available) (daysRevOf c.days_available)
    (preMockTable learn_min exo_min review_min c)

/-- The per-day table returned to the caller, after the rebalancing pass. -/
def finalTable (learn_min exo_min review_min mock_min : Int)
    (c : Constraints) : List DayAlloc :=
  rebalance c.blocked_days c.min_minutes_per_day (daysIdxOf c.days_available)
    (passesTable learn_min exo_min review_min mock_min c)

/-- distribute_minutes_over_days (study_planner.py lines 197-334), for runs
without a start date: four placement passes, the rebalancing pass, then the
conversion of the table into PlanItem rows in day order. -/
def distribute_minutes_over_days (learn_min exo_min review_min mock_min : Int)
    (c : Constraints) : List PlanItem :=
  (List.range c.days_available.toNat).map (fun (d : Nat) =>
    ⟨(d : Int), none,
      ((finalTable learn_min exo_min review_min mock_min c).getD d zeroAlloc).learn,
      ((finalTable learn_min exo_min review_min mock_min c).getD d zeroAlloc).exo,
      ((finalTable learn_min exo_min review_min mock_min c).getD d zeroAlloc).review,
      ((finalTable learn_min exo_min review_min mock_min c).getD d zeroAlloc).mock⟩)

/-- The same engine with its Python error behaviour made explicit.  For
`days_available >= 1` every list access is in range and the run returns
normally.  For `days_available <= 0` the day table is empty while the review
pass still walks the window `[0, D-1]` around the fallback wave anchor 0
(lines 260-282), so `per_day[0]` (or `per_day[D-1]`) raises an uncaught
IndexError unless both of those indices are in blocked_days, in which case
every loop body is skipped and the empty plan is returned. -/
def distributeE (learn_min exo_min review_min mock_min : Int)
    (c : Constraints) : Except String (List PlanItem) :=
  if 1 ≤ c.days_available then
    Except.ok (distribute_minutes_over_days learn_min exo_min review_min mock_min c)
  else if (0 : Int) ∈ c.blocked_days ∧ (c.days_available - 1) ∈ c.blocked_days then
    Except.ok []
  else Except.error "IndexError: list index out of range"

/-- Modelled from the claim wording, for comparison with the source: the
mock order obtained from the tail `days_idx[ceil(0.6*D):]` instead of the
code truncation `days_idx[int(D*0.6):]`. -/
def mockOrderCeil (D : Int) : List Int :=
  if (daysIdxOf D).filter
      (fun d => decide (d ∈ (if 1 < D then (daysIdxOf D).drop ((3 * D + 4) / 5).toNat
                             else [0]))) = [] then
    daysIdxOf D
  else
    (daysIdxOf D).filter
      (fun d => decide (d ∈ (if 1 < D then (daysIdxOf D).drop ((3 * D + 4) / 5).toNat
                             else [0])))

/-- Modelled from the claim wording: the engine with the mock pass placed
preferentially into `days_idx[ceil(0.6*D):]`, all other passes unchanged. -/
def distribute_ceilMock (learn_min exo_min review_min mock_min : Int)
    (c : Constraints) : List PlanItem :=
  (List.range c.days_available.toNat).map (fun (d : Nat) =>
    ⟨(d : Int), none,
      ((rebalance c.blocked_days c.min_minutes_per_day (daysIdxOf c.days_available)
          (planPass c.blocked_days c.max_minutes_per_day Kind.mock mock_min
            (mockOrderCeil c.days_available) (daysRevOf c.days_available)
            (preMockTable learn_min exo_min review_min c))).getD d zeroAlloc).learn,
      ((rebalance c.blocked_days c.min_minutes_per_day (daysIdxOf c.days_available)
          (planPass c.blocked_days c.max_minutes_per_day Kind.mock mock_min
            (mockOrderCeil c.days_available) (daysRevOf c.days_available)
            (preMockTable learn_min exo_min review_min c))).getD d zeroAlloc).exo,
      ((rebalance c.blocked_days c.min_minutes_per_day (daysIdxOf c.days_available)
          (planPass c.blocked_days c.max_minutes_per_day Kind.mock mock_min
            (mockOrderCeil c.days_available) (daysRevOf c.days_available)
            (preMockTable learn_min exo_min review_min c))).getD d zeroAlloc).review,
      ((rebalance c.blocked_days c.min_minutes_per_day (daysIdxOf c.days_available)
          (planPass c.blocked_days c.max_minutes_per_day Kind.mock mock_min
            (mockOrderCeil c.days_available) (daysRevOf c.days_available)
            (preMockTable learn_min exo_min review_min c))).getD d zeroAlloc).mock⟩)

/-- Total minutes in the table: the grand total over all days. -/
def tableSum (t : List DayAlloc) : Int := (t.map daySum).sum

/-- Bucket nonnegativity of one day. -/
def allNonneg (a : DayAlloc) : Prop :=
  0 ≤ a.learn ∧ 0 ≤ a.exo ∧ 0 ≤ a.review ∧ 0 ≤ a.mock

/-- Every entry of the table has four non-negative buckets. -/
def NonNegT (t : List DayAlloc) : Prop :=
  ∀ i : Nat, i < t.length → allNonneg (t.getD i zeroAlloc)

/-- Every entry of the table has bucket sum at most maxd. -/
def CapT (maxd : Int) (t : List DayAlloc) : Prop :=
  ∀ i : Nat, i < t.length → daySum (t.getD i zeroAlloc) ≤ maxd

/-- Every blocked day of the table is still entirely zero. -/
def BlockedZeroT (b : List Int) (t : List DayAlloc) : Prop :=
  ∀ i : Nat, i < t.length → ((i : Int) ∈ b) → t.getD i zeroAlloc = zeroAlloc

/-- Decidability of the bucket predicates, so concrete witnesses can be
checked by decide. -/
instance (a : DayAlloc) : Decidable (allNonneg a) := by
  unfold allNonneg
  infer_instance

instance (t : List DayAlloc) : Decidable (NonNegT t) := by
  unfold NonNegT
  infer_instance

/-! Generic list lemmas about getD and set. -/

theorem getD_set_self {α : Type} (l : List α) (i : Nat) (v d0 : α)
    (h : i < l.length) : (l.set i v).getD i d0 = v := by
  induction l generalizing i with
  | nil => simp at h
  | cons a as ih =>
    cases i with
    | zero => rfl
    | succ n => simpa using ih n (by simpa using h)

theorem getD_set_ne {α : Type} (l : List α) (i j : Nat) (v d0 : α)
    (h : i ≠ j) : (l.set i v).getD j d0 = l.getD j d0 := by
  induction l generalizing i j with
  | nil => rfl
  | cons a as ih =>
    cases i with
    | zero =>
      cases j with
      | zero => exact absurd rfl h
      | succ m => rfl
    | succ n =>
      cases j with
      | zero => rfl
      | succ m => simpa using ih n m (by omega)

theorem set_getD_self {α : Type} (l : List α) (i : Nat) (d0 : α) :
    l.set i (l.getD i d0) = l := by
  induction l generalizing i with
  | nil => rfl
  | cons a as ih =>
    cases i with
    | zero => rfl
    | succ n => simpa using ih n

/-! Bucket arithmetic lemmas. -/

theorem DayAlloc.add_zero (a : DayAlloc) (k : Kind) : a.add k 0 = a := by
  cases k <;> simp [DayAlloc.add]

theorem DayAlloc.get_add_self (a : DayAlloc) (k : Kind) (m : Int) :
    (a.add k m).get k = a.get k + m := by
  cases k <;> simp [DayAlloc.add, DayAlloc.get]

theorem DayAlloc.get_add_ne (a : DayAlloc) (k k2 : Kind) (m : Int) (h : k2 ≠ k) :
    (a.add k m).get k2 = a.get k2 := by
  cases k <;> cases k2 <;> simp_all [DayAlloc.add, DayAlloc.get]

theorem daySum_add (a : DayAlloc) (k : Kind) (m : Int) :
    daySum (a.add k m) = daySum a + m := by
  cases k <;> simp [DayAlloc.add, daySum] <;> ring

theorem daySum_zeroAlloc : daySum zeroAlloc = 0 := rfl

theorem allNonneg_zeroAlloc : allNonneg zeroAlloc := by
  refine ⟨le_refl 0, le_refl 0, le_refl 0, le_refl 0⟩

theorem allNonneg_add (a : DayAlloc) (k : Kind) (m : Int) (ha : allNonneg a)
    (hm : 0 ≤ m) : allNonneg (a.add k m) := by
  obtain ⟨h1, h2, h3, h4⟩ := ha
  cases k <;> exact ⟨by simp [DayAlloc.add] <;> omega, by simp [DayAlloc.add] <;> omega,
    by simp [DayAlloc.add] <;> omega, by simp [DayAlloc.add] <;> omega⟩

theorem allNonneg_sub_get (a : DayAlloc) (k : Kind) (m : Int) (ha : allNonneg a)
    (hm : m ≤ a.get k) : allNonneg (a.add k (-m)) := by
  obtain ⟨h1, h2, h3, h4⟩ := ha
  cases k <;> simp_all [DayAlloc.add, DayAlloc.get, allNonneg] <;> omega

theorem daySum_nonneg (a : DayAlloc) (ha : allNonneg a) : 0 ≤ daySum a := by
  obtain ⟨h1, h2, h3, h4⟩ := ha
  simp [daySum]; omega

theorem get_nonneg (a : DayAlloc) (k : Kind) (ha : allNonneg a) : 0 ≤ a.get k := by
  obtain ⟨h1, h2, h3, h4⟩ := ha
  cases k <;> simpa [DayAlloc.get]

theorem get_le_daySum (a : DayAlloc) (k : Kind) (ha : allNonneg a) :
    a.get k ≤ daySum a := by
  obtain ⟨h1, h2, h3, h4⟩ := ha
  cases k <;> simp [DayAlloc.get, daySum] <;> omega

theorem daySum_eq_zero_buckets (a : DayAlloc) (ha : allNonneg a)
    (h : daySum a = 0) : a = zeroAlloc := by
  obtain ⟨h1, h2, h3, h4⟩ := ha
  simp [daySum] at h
  cases a
  simp_all [zeroAlloc]
  omega

/-! Table sum lemmas. -/

theorem tableSum_nil : tableSum [] = 0 := rfl

theorem tableSum_cons (a : DayAlloc) (t : List DayAlloc) :
    tableSum (a :: t) = daySum a + tableSum t := by
  simp [tableSum]

theorem tableSum_set (t : List DayAlloc) (i : Nat) (v : DayAlloc)
    (h : i < t.length) :
    tableSum (t.set i v) = tableSum t - daySum (t.getD i zeroAlloc) + daySum v := by
  induction t generalizing i with
  | nil => simp at h
  | cons a as ih =>
    cases i with
    | zero => simp [tableSum_cons]; ring
    | succ n =>
      have hn : n < as.length := by simpa using h
      simp only [List.set_cons_succ, tableSum_cons, List.getD_cons_succ, ih n hn]
      ring

theorem tableSum_getD_eq_range (t : List DayAlloc) :
    tableSum t
      = ((List.range t.length).map (fun i => daySum (t.getD i zeroAlloc))).sum := by
  induction t with
  | nil => rfl
  | cons a as ih =>
    rw [tableSum_cons, ih]
    simp only [List.length_cons, List.range_succ_eq_map, List.map_cons, List.sum_cons,
      List.getD_cons_zero, List.map_map]
    congr 1

/-! Sum helper lemmas over lists of integers. -/

theorem sum_map_add_distrib {α : Type} (l : List α) (f g : α → Int) :
    (l.map (fun x => f x + g x)).sum = (l.map f).sum + (l.map g).sum := by
  induction l with
  | nil => rfl
  | cons a as ih => simp [ih]; ring

theorem sum_map_const_int {α : Type} (l : List α) (c : Int) :
    (l.map (fun _ => c)).sum = (l.length : Int) * c := by
  induction l with
  | nil => simp
  | cons a as ih => simp [ih]; ring

theorem sum_indicator_range (n : Nat) (s : Int) (hs : 0 ≤ s) :
    ((List.range n).map (fun (i : Nat) => if (i : Int) < s then (1 : Int) else 0)).sum
      = min s (n : Int) := by
  induction n with
  | zero => simpa using hs
  | succ m ih =>
    rw [List.range_succ, List.map_append, List.sum_append]
    rw [ih]
    simp only [List.map_cons, List.map_nil, List.sum_cons, List.sum_nil]
    by_cases h : (m : Int) < s
    · rw [if_pos h]
      push_cast
      omega
    · rw [if_neg h]
      push_cast
      omega

/-! Lemmas about push. -/

theorem push_length (b : List Int) (maxd : Int) (k : Kind) (o : List Int) :
    ∀ (r : Int) (t : List DayAlloc), (push b maxd k r o t).1.length = t.length := by
  induction o with
  | nil => intro r t; rfl
  | cons d ds ih =>
    intro r t
    rw [push]
    split_ifs with h1 h2 h3
    · exact ih r t
    · exact ih r t
    · simp
    · rw [ih]; simp

theorem push_rem_bounds (b : List Int) (maxd : Int) (k : Kind) (o : List Int) :
    ∀ (r : Int) (t : List DayAlloc), 0 ≤ r →
      0 ≤ (push b maxd k r o t).2 ∧ (push b maxd k r o t).2 ≤ r := by
  induction o with
  | nil => intro r t hr; exact ⟨hr, le_refl r⟩
  | cons d ds ih =>
    intro r t hr
    rw [push]
    split_ifs with h1 h2 h3
    · exact ih r t hr
    · exact ih r t hr
    · constructor
      · simp only
        omega
      · simp only
        omega
    · have h4 : 0 ≤ r - min (maxd - daySum (t.getD d.toNat zeroAlloc)) r := by omega
      obtain ⟨ha, hb⟩ := ih _ _ h4
      exact ⟨ha, by omega⟩

theorem push_untouched (b : List Int) (maxd : Int) (k : Kind) (o : List Int) :
    ∀ (r : Int) (t : List DayAlloc) (j : Nat), (∀ d ∈ o, d.toNat ≠ j) →
      (push b maxd k r o t).1.getD j zeroAlloc = t.getD j zeroAlloc := by
  induction o with
  | nil => intro r t j _; rfl
  | cons d ds ih =>
    intro r t j hj
    have hd : d.toNat ≠ j := hj d (by simp)
    have hds : ∀ x ∈ ds, x.toNat ≠ j := fun x hx => hj x (by simp [hx])
    rw [push]
    split_ifs with h1 h2 h3
    · exact ih r t j hds
    · exact ih r t j hds
    · exact getD_set_ne t d.toNat j _ zeroAlloc hd
    · rw [ih _ _ j hds]
      exact getD_set_ne t d.toNat j _ zeroAlloc hd

theorem push_blocked_untouched (b : List Int) (maxd : Int) (k : Kind)
    (o : List Int) :
    ∀ (r : Int) (t : List DayAlloc) (j : Nat), (∀ d ∈ o, 0 ≤ d) →
      ((j : Int) ∈ b) →
      (push b maxd k r o t).1.getD j zeroAlloc = t.getD j zeroAlloc := by
  induction o with
  | nil => intro r t j _ _; rfl
  | cons d ds ih =>
    intro r t j ho hj
    have hds : ∀ x ∈ ds, 0 ≤ x := fun x hx => ho x (by simp [hx])
    rw [push]
    split_ifs with h1 h2 h3
    · exact ih r t j hds hj
    · exact ih r t j hds hj
    · have hd : d.toNat ≠ j := by
        intro hEq
        have hcast : (d.toNat : Int) = d := Int.toNat_of_nonneg (ho d (by simp))
        exact h1 (by rw [← hcast, hEq]; exact hj)
      exact getD_set_ne t d.toNat j _ zeroAlloc hd
    · have hd : d.toNat ≠ j := by
        intro hEq
        have hcast : (d.toNat : Int) = d := Int.toNat_of_nonneg (ho d (by simp))
        exact h1 (by rw [← hcast, hEq]; exact hj)
      rw [ih _ _ j hds hj]
      exact getD_set_ne t d.toNat j _ zeroAlloc hd

theorem push_nonneg (b : List Int) (maxd : Int) (k : Kind) (o : List Int) :
    ∀ (r : Int) (t : List DayAlloc), 0 ≤ r → NonNegT t →
      NonNegT (push b maxd k r o t).1 := by
  induction o with
  | nil => intro r t _ h; exact h
  | cons d ds ih =>
    intro r t hr hnn
    have hset : ¬ maxd - daySum (t.getD d.toNat zeroAlloc) ≤ 0 →
        NonNegT (t.set d.toNat ((t.getD d.toNat zeroAlloc).add k
          (min (maxd - daySum (t.getD d.toNat zeroAlloc)) r))) := by
      intro hcap j hj
      rw [List.length_set] at hj
      by_cases hjd : d.toNat = j
      · subst hjd
        rw [getD_set_self _ _ _ _ hj]
        exact allNonneg_add _ _ _ (hnn _ hj) (by omega)
      · rw [getD_set_ne _ _ _ _ _ hjd]
        exact hnn j hj
    rw [push]
    split_ifs with h1 h2 h3
    · exact ih r t hr hnn
    · exact ih r t hr hnn
    · intro j hj
      simp only at hj ⊢
      exact hset h2 j hj
    · exact ih _ _ (by omega) (hset h2)

theorem set_out_of_range {α : Type} (l : List α) (i : Nat) (v : α)
    (h : l.length ≤ i) : l.set i v = l := by
  induction l generalizing i with
  | nil => rfl
  | cons a as ih =>
    cases i with
    | zero => simp at h
    | succ n => simpa using ih n (by simpa using h)

theorem push_cap (b : List Int) (maxd : Int) (k : Kind) (o : List Int) :
    ∀ (r : Int) (t : List DayAlloc), CapT maxd t →
      CapT maxd (push b maxd k r o t).1 := by
  induction o with
  | nil => intro r t h; exact h
  | cons d ds ih =>
    intro r t hc
    have hset : CapT maxd (t.set d.toNat ((t.getD d.toNat zeroAlloc).add k
        (min (maxd - daySum (t.getD d.toNat zeroAlloc)) r))) := by
      intro j hj
      rw [List.length_set] at hj
      by_cases hjd : d.toNat = j
      · subst hjd
        rw [getD_set_self _ _ _ _ hj, daySum_add]
        have := hc _ hj
        omega
      · rw [getD_set_ne _ _ _ _ _ hjd]
        exact hc j hj
    rw [push]
    split_ifs with h1 h2 h3
    · exact ih r t hc
    · exact ih r t hc
    · intro j hj
      simp only at hj ⊢
      exact hset j hj
    · exact ih _ _ hset

theorem push_sum (b : List Int) (maxd : Int) (k : Kind) (o : List Int) :
    ∀ (r : Int) (t : List DayAlloc), (∀ d ∈ o, 0 ≤ d ∧ d.toNat < t.length) →
      tableSum (push b maxd k r o t).1
        = tableSum t + (r - (push b maxd k r o t).2) := by
  induction o with
  | nil => intro r t _; simp [push]
  | cons d ds ih =>
    intro r t ho
    have hd := ho d (by simp)
    have hds : ∀ x ∈ ds, 0 ≤ x ∧ x.toNat < t.length := fun x hx => ho x (by simp [hx])
    rw [push]
    split_ifs with h1 h2 h3
    · rw [ih r t hds]
    · rw [ih r t hds]
    · simp only
      rw [tableSum_set _ _ _ hd.2, daySum_add]
      ring
    · have hds2 : ∀ x ∈ ds, 0 ≤ x ∧ x.toNat <
          (t.set d.toNat ((t.getD d.toNat zeroAlloc).add k
            (min (maxd - daySum (t.getD d.toNat zeroAlloc)) r))).length := by
        intro x hx
        have := hds x hx
        simpa [List.length_set] using this
      rw [ih _ _ hds2, tableSum_set _ _ _ hd.2, daySum_add]
      ring

theorem push_zero (b : List Int) (maxd : Int) (k : Kind) (o : List Int) :
    ∀ (t : List DayAlloc), push b maxd k 0 o t = (t, 0) := by
  induction o with
  | nil => intro t; rfl
  | cons d ds ih =>
    intro t
    rw [push]
    split_ifs with h1 h2 h3
    · exact ih t
    · exact ih t
    · have hm : min (maxd - daySum (t.getD d.toNat zeroAlloc)) 0 = 0 := by omega
      rw [hm, DayAlloc.add_zero, set_getD_self]
      simp
    · exfalso
      omega

theorem push_get_ne_kind (b : List Int) (maxd : Int) (k : Kind) (o : List Int) :
    ∀ (r : Int) (t : List DayAlloc) (j : Nat) (k2 : Kind), k2 ≠ k →
      ((push b maxd k r o t).1.getD j zeroAlloc).get k2
        = (t.getD j zeroAlloc).get k2 := by
  induction o with
  | nil => intro r t j k2 _; rfl
  | cons d ds ih =>
    intro r t j k2 hk
    have hset : ∀ v : Int,
        ((t.set d.toNat ((t.getD d.toNat zeroAlloc).add k v)).getD j zeroAlloc).get k2
          = (t.getD j zeroAlloc).get k2 := by
      intro v
      by_cases hjd : d.toNat = j
      · subst hjd
        by_cases hrange : d.toNat < t.length
        · rw [getD_set_self _ _ _ _ hrange, DayAlloc.get_add_ne _ _ _ _ hk]
        · rw [set_out_of_range _ _ _ (by omega)]
      · rw [getD_set_ne _ _ _ _ _ hjd]
    rw [push]
    split_ifs with h1 h2 h3
    · exact ih r t j k2 hk
    · exact ih r t j k2 hk
    · exact hset _
    · rw [ih _ _ j k2 hk, hset _]

theorem push_complete (b : List Int) (maxd : Int) (k : Kind) (o : List Int) :
    ∀ (r : Int) (t : List DayAlloc), 0 ≤ r →
      (∀ d ∈ o, 0 ≤ d ∧ d.toNat < t.length ∧ d ∉ b) → o.Nodup →
      r ≤ (o.map (fun d => max 0 (maxd - daySum (t.getD d.toNat zeroAlloc)))).sum →
      (push b maxd k r o t).2 ≤ 0 := by
  induction o with
  | nil => intro r t hr _ _ hcap; simpa using hcap
  | cons d ds ih =>
    intro r t hr ho hnd hcap
    have hd := ho d (by simp)
    have hds : ∀ x ∈ ds, 0 ≤ x ∧ x.toNat < t.length ∧ x ∉ b :=
      fun x hx => ho x (by simp [hx])
    obtain ⟨hdm, hnd2⟩ := List.nodup_cons.mp hnd
    rw [List.map_cons, List.sum_cons] at hcap
    rw [push]
    split_ifs with h1 h2 h3
    · exact absurd h1 hd.2.2
    · apply ih r t hr hds hnd2
      have hz : max 0 (maxd - daySum (t.getD d.toNat zeroAlloc)) = 0 := by omega
      omega
    · exact h3
    · have hmin : min (maxd - daySum (t.getD d.toNat zeroAlloc)) r
          = maxd - daySum (t.getD d.toNat zeroAlloc) := by omega
      set t2 := t.set d.toNat ((t.getD d.toNat zeroAlloc).add k
        (min (maxd - daySum (t.getD d.toNat zeroAlloc)) r)) with ht2
      have hsame : ∀ x ∈ ds,
          t2.getD x.toNat zeroAlloc = t.getD x.toNat zeroAlloc := by
        intro x hx
        apply getD_set_ne
        intro hEq
        have hx0 : 0 ≤ x := (hds x hx).1
        have hd0 : 0 ≤ d := hd.1
        have : d = x := by
          have h1c : (d.toNat : Int) = d := Int.toNat_of_nonneg hd0
          have h2c : (x.toNat : Int) = x := Int.toNat_of_nonneg hx0
          rw [← h1c, ← h2c, hEq]
        exact hdm (this ▸ hx)
      have hds2 : ∀ x ∈ ds, 0 ≤ x ∧ x.toNat < t2.length ∧ x ∉ b := by
        intro x hx
        have := hds x hx
        simp only [ht2, List.length_set]
        exact this
      apply ih _ _ (by omega) hds2 hnd2
      have hmaps : (ds.map (fun x => max 0 (maxd - daySum (t2.getD x.toNat zeroAlloc)))).sum
          = (ds.map (fun x => max 0 (maxd - daySum (t.getD x.toNat zeroAlloc)))).sum := by
        congr 1
        apply List.map_congr_left
        intro x hx
        rw [hsame x hx]
      rw [hmaps]
      omega

/-! Lemmas about the rebalancing transfer helpers. -/

theorem pull1_snd (t : List DayAlloc) (s d : Int) (k : Kind) (need : Int) :
    (pull1 t s d k need).2
      = need - min ((t.getD s.toNat zeroAlloc).get k) need := rfl

theorem pull1_length (t : List DayAlloc) (s d : Int) (k : Kind) (need : Int) :
    (pull1 t s d k need).1.length = t.length := by
  simp [pull1, List.length_set]

theorem pull1_getD_s (t : List DayAlloc) (s d : Int) (k : Kind) (need : Int)
    (hsd : s.toNat ≠ d.toNat) (hsl : s.toNat < t.length) :
    (pull1 t s d k need).1.getD s.toNat zeroAlloc
      = (t.getD s.toNat zeroAlloc).add k
          (-(min ((t.getD s.toNat zeroAlloc).get k) need)) := by
  simp only [pull1]
  rw [getD_set_ne _ d.toNat s.toNat _ _ (fun h => hsd h.symm)]
  exact getD_set_self _ _ _ _ hsl

theorem pull1_getD_d (t : List DayAlloc) (s d : Int) (k : Kind) (need : Int)
    (hsd : s.toNat ≠ d.toNat) (hdl : d.toNat < t.length) :
    (pull1 t s d k need).1.getD d.toNat zeroAlloc
      = (t.getD d.toNat zeroAlloc).add k
          (min ((t.getD s.toNat zeroAlloc).get k) need) := by
  simp only [pull1]
  rw [getD_set_self _ d.toNat _ _ (by simpa [List.length_set] using hdl)]
  rw [getD_set_ne _ s.toNat d.toNat _ _ hsd]

theorem pull1_getD_other (t : List DayAlloc) (s d : Int) (k : Kind) (need : Int)
    (j : Nat) (hjs : j ≠ s.toNat) (hjd : j ≠ d.toNat) :
    (pull1 t s d k need).1.getD j zeroAlloc = t.getD j zeroAlloc := by
  simp only [pull1]
  rw [getD_set_ne _ d.toNat j _ _ (fun h => hjd h.symm)]
  rw [getD_set_ne _ s.toNat j _ _ (fun h => hjs h.symm)]

theorem pull1_zero_bucket (t : List DayAlloc) (s d : Int) (k : Kind) (need : Int)
    (hb : (t.getD s.toNat zeroAlloc).get k = 0) (hneed : 0 ≤ need) :
    pull1 t s d k need = (t, need) := by
  have hmin : min ((t.getD s.toNat zeroAlloc).get k) need = 0 := by
    rw [hb]; omega
  simp only [pull1, hmin, neg_zero, DayAlloc.add_zero, set_getD_self, sub_zero]

theorem pull1_tableSum (t : List DayAlloc) (s d : Int) (k : Kind) (need : Int)
    (hsd : s.toNat ≠ d.toNat) (hsl : s.toNat < t.length) (hdl : d.toNat < t.length) :
    tableSum (pull1 t s d k need).1 = tableSum t := by
  simp only [pull1]
  rw [tableSum_set _ d.toNat _ (by simpa [List.length_set] using hdl)]
  rw [tableSum_set _ s.toNat _ hsl]
  rw [getD_set_ne _ s.toNat d.toNat _ _ hsd]
  rw [daySum_add, daySum_add]
  ring

theorem pullKinds_spec (s d : Int) (K : List Kind) :
    ∀ (t : List DayAlloc) (need : Int),
      s.toNat ≠ d.toNat → s.toNat < t.length → d.toNat < t.length →
      K.Nodup → NonNegT t → 0 < need →
      (pullKinds s d K t need).1.length = t.length
      ∧ 0 ≤ (pullKinds s d K t need).2
      ∧ (pullKinds s d K t need).2 ≤ need
      ∧ need - (pullKinds s d K t need).2
          = min need ((K.map (fun k2 => (t.getD s.toNat zeroAlloc).get k2)).sum)
      ∧ NonNegT (pullKinds s d K t need).1
      ∧ daySum ((pullKinds s d K t need).1.getD s.toNat zeroAlloc)
          = daySum (t.getD s.toNat zeroAlloc) - (need - (pullKinds s d K t need).2)
      ∧ daySum ((pullKinds s d K t need).1.getD d.toNat zeroAlloc)
          = daySum (t.getD d.toNat zeroAlloc) + (need - (pullKinds s d K t need).2)
      ∧ (∀ j : Nat, j ≠ s.toNat → j ≠ d.toNat →
          (pullKinds s d K t need).1.getD j zeroAlloc = t.getD j zeroAlloc)
      ∧ tableSum (pullKinds s d K t need).1 = tableSum t
      ∧ (t.getD s.toNat zeroAlloc = zeroAlloc →
          pullKinds s d K t need = (t, need)) := by
  induction K with
  | nil =>
    intro t need hsd hsl hdl _ hnn hneed
    refine ⟨rfl, le_of_lt hneed, le_refl need, ?_, hnn, ?_, ?_,
      fun j _ _ => rfl, rfl, fun _ => rfl⟩
    · show need - need = min need ((0 : Int))
      omega
    · show daySum (t.getD s.toNat zeroAlloc)
        = daySum (t.getD s.toNat zeroAlloc) - (need - need)
      omega
    · show daySum (t.getD d.toNat zeroAlloc)
        = daySum (t.getD d.toNat zeroAlloc) + (need - need)
      omega
  | cons k ks ih =>
    intro t need hsd hsl hdl hnd hnn hneed
    obtain ⟨hkks, hnd2⟩ := List.nodup_cons.mp hnd
    have hb1 : 0 ≤ (t.getD s.toNat zeroAlloc).get k := get_nonneg _ _ (hnn _ hsl)
    have hSks : 0 ≤ ((ks.map (fun k2 => (t.getD s.toNat zeroAlloc).get k2)).sum) := by
      apply List.sum_nonneg
      intro x hx
      obtain ⟨k2, hk2, rfl⟩ := List.mem_map.mp hx
      exact get_nonneg _ _ (hnn _ hsl)
    simp only [pullKinds]
    split_ifs with h1
    · rw [pull1_snd] at h1
      refine ⟨pull1_length t s d k need, ?_, ?_, ?_, ?_, ?_, ?_, ?_, ?_, ?_⟩
      · rw [pull1_snd]; omega
      · rw [pull1_snd]; omega
      · rw [pull1_snd, List.map_cons, List.sum_cons]
        omega
      · intro j hj
        rw [pull1_length] at hj
        by_cases hjs : j = s.toNat
        · subst hjs
          rw [pull1_getD_s t s d k need hsd hsl]
          exact allNonneg_sub_get _ _ _ (hnn _ hj) (by omega)
        · by_cases hjd : j = d.toNat
          · subst hjd
            rw [pull1_getD_d t s d k need hsd hdl]
            exact allNonneg_add _ _ _ (hnn _ hj) (by omega)
          · rw [pull1_getD_other t s d k need j hjs hjd]
            exact hnn _ hj
      · rw [pull1_getD_s t s d k need hsd hsl, daySum_add, pull1_snd]
        ring
      · rw [pull1_getD_d t s d k need hsd hdl, daySum_add, pull1_snd]
        ring
      · intro j hjs hjd
        exact pull1_getD_other t s d k need j hjs hjd
      · exact pull1_tableSum t s d k need hsd hsl hdl
      · intro hz
        exfalso
        have hb0 : (t.getD s.toNat zeroAlloc).get k = 0 := by
          rw [hz]; cases k <;> rfl
        omega
    · rw [pull1_snd] at h1
      push_neg at h1
      have hb1lt : (t.getD s.toNat zeroAlloc).get k < need := by omega
      have hmove : min ((t.getD s.toNat zeroAlloc).get k) need
          = (t.getD s.toNat zeroAlloc).get k := by omega
      have hlen1 : (pull1 t s d k need).1.length = t.length := pull1_length t s d k need
      have hnn1 : NonNegT (pull1 t s d k need).1 := by
        intro j hj
        rw [hlen1] at hj
        by_cases hjs : j = s.toNat
        · subst hjs
          rw [pull1_getD_s t s d k need hsd hsl]
          exact allNonneg_sub_get _ _ _ (hnn _ hj) (by omega)
        · by_cases hjd : j = d.toNat
          · subst hjd
            rw [pull1_getD_d t s d k need hsd hdl]
            exact allNonneg_add _ _ _ (hnn _ hj) (by omega)
          · rw [pull1_getD_other t s d k need j hjs hjd]
            exact hnn _ hj
      have hrec := ih (pull1 t s d k need).1 (pull1 t s d k need).2 hsd
        (by rw [hlen1]; exact hsl) (by rw [hlen1]; exact hdl) hnd2 hnn1
        (by rw [pull1_snd]; omega)
      obtain ⟨rA, rB1, rB2, rG, rN, rS, rD, rU, rT, rZ⟩ := hrec
      have hmapeq : ((ks.map
            (fun k2 => ((pull1 t s d k need).1.getD s.toNat zeroAlloc).get k2)).sum)
          = ((ks.map (fun k2 => (t.getD s.toNat zeroAlloc).get k2)).sum) := by
        congr 1
        apply List.map_congr_left
        intro k2 hk2
        rw [pull1_getD_s t s d k need hsd hsl]
        exact DayAlloc.get_add_ne _ _ _ _ (fun h => hkks (h ▸ hk2))
      have hts : daySum ((pull1 t s d k need).1.getD s.toNat zeroAlloc)
          = daySum (t.getD s.toNat zeroAlloc)
            - min ((t.getD s.toNat zeroAlloc).get k) need := by
        rw [pull1_getD_s t s d k need hsd hsl, daySum_add]
        ring
      have htd : daySum ((pull1 t s d k need).1.getD d.toNat zeroAlloc)
          = daySum (t.getD d.toNat zeroAlloc)
            + min ((t.getD s.toNat zeroAlloc).get k) need := by
        rw [pull1_getD_d t s d k need hsd hdl, daySum_add]
      have hsnd := pull1_snd t s d k need
      refine ⟨by rw [rA, hlen1], rB1, ?_, ?_, rN, ?_, ?_, ?_, ?_, ?_⟩
      · omega
      · rw [List.map_cons, List.sum_cons]
        rw [hmapeq] at rG
        omega
      · rw [hts] at rS
        omega
      · rw [htd] at rD
        omega
      · intro j hjs hjd
        rw [rU j hjs hjd, pull1_getD_other t s d k need j hjs hjd]
      · rw [rT, pull1_tableSum t s d k need hsd hsl hdl]
      · intro hz
        have hb0 : (t.getD s.toNat zeroAlloc).get k = 0 := by
          rw [hz]; cases k <;> rfl
        have hp : pull1 t s d k need = (t, need) :=
          pull1_zero_bucket t s d k need hb0 (by omega)
        have hz1 : (pull1 t s d k need).1.getD s.toNat zeroAlloc = zeroAlloc := by
          rw [hp]; exact hz
        have hres := rZ hz1
        rw [hp] at hres
        rw [hp]
        exact hres

theorem kindsSum_daySum (a : DayAlloc) :
    (([Kind.review, Kind.exo, Kind.learn, Kind.mock]).map (fun k2 => a.get k2)).sum
      = daySum a := by
  simp [DayAlloc.get, daySum]
  ring

theorem donorScan_spec (d : Int) (scan : List Int) :
    ∀ (t : List DayAlloc) (mind need : Int),
      0 ≤ d → d.toNat < t.length →
      (∀ x ∈ scan, 0 ≤ x ∧ x.toNat < t.length) →
      NonNegT t → 0 < need →
      (donorScan mind scan t d need).length = t.length
      ∧ NonNegT (donorScan mind scan t d need)
      ∧ (∀ j : Nat, j ≠ d.toNat →
          daySum ((donorScan mind scan t d need).getD j zeroAlloc)
            ≤ daySum (t.getD j zeroAlloc))
      ∧ daySum ((donorScan mind scan t d need).getD d.toNat zeroAlloc)
          ≤ daySum (t.getD d.toNat zeroAlloc) + need
      ∧ tableSum (donorScan mind scan t d need) = tableSum t
      ∧ (∀ j : Nat, j ≠ d.toNat → t.getD j zeroAlloc = zeroAlloc →
          (donorScan mind scan t d need).getD j zeroAlloc = zeroAlloc) := by
  induction scan with
  | nil =>
    intro t mind need _ _ _ hnn hneed
    simp only [donorScan]
    exact ⟨trivial, hnn, fun j _ => le_refl _, by omega, trivial, fun j _ hz => hz⟩
  | cons s ss ih =>
    intro t mind need hd0 hdl hscan hnn hneed
    have hss : ∀ x ∈ ss, 0 ≤ x ∧ x.toNat < t.length :=
      fun x hx => hscan x (by simp [hx])
    by_cases hsd : s = d
    · simp only [donorScan, if_pos hsd]
      exact ih t mind need hd0 hdl hss hnn hneed
    · have hs := hscan s (by simp)
      have hsdnat : s.toNat ≠ d.toNat := by
        intro h
        apply hsd
        rw [← Int.toNat_of_nonneg hs.1, ← Int.toNat_of_nonneg hd0, h]
      simp only [donorScan, if_neg hsd]
      by_cases helig : mind ≤ daySum (t.getD s.toNat zeroAlloc) - need
          ∨ mind + 60 < daySum (t.getD s.toNat zeroAlloc)
      · simp only [if_pos helig]
        obtain ⟨pA, pB1, pB2, pG, pN, pS, pD, pU, pT, pZ⟩ :=
          pullKinds_spec s d [Kind.review, Kind.exo, Kind.learn, Kind.mock] t need
            hsdnat hs.2 hdl (by decide) hnn hneed
        by_cases h2 :
            (pullKinds s d [Kind.review, Kind.exo, Kind.learn, Kind.mock] t need).2 ≤ 0
        · simp only [if_pos h2]
          refine ⟨pA, pN, ?_, ?_, pT, ?_⟩
          · intro j hj
            by_cases hjs : j = s.toNat
            · subst hjs
              rw [pS]
              omega
            · rw [pU j hjs hj]
          · rw [pD]
            omega
          · intro j hj hz
            by_cases hjs : j = s.toNat
            · subst hjs
              have hfix := pZ hz
              rw [hfix]
              exact hz
            · rw [pU j hjs hj]
              exact hz
        · simp only [if_neg h2]
          push_neg at h2
          have hss2 : ∀ x ∈ ss, 0 ≤ x ∧ x.toNat <
              (pullKinds s d [Kind.review, Kind.exo, Kind.learn, Kind.mock] t need).1.length := by
            rw [pA]
            exact hss
          have hrec := ih
            (pullKinds s d [Kind.review, Kind.exo, Kind.learn, Kind.mock] t need).1
            mind (pullKinds s d [Kind.review, Kind.exo, Kind.learn, Kind.mock] t need).2
            hd0 (by rw [pA]; exact hdl) hss2 pN h2
          obtain ⟨qA, qN, qC, qD, qT, qZ⟩ := hrec
          refine ⟨by rw [qA, pA], qN, ?_, ?_, by rw [qT, pT], ?_⟩
          · intro j hj
            have h3 := qC j hj
            by_cases hjs : j = s.toNat
            · subst hjs
              rw [pS] at h3
              omega
            · rw [pU j hjs hj] at h3
              exact h3
          · have h4 := qD
            rw [pD] at h4
            omega
          · intro j hj hz
            by_cases hjs : j = s.toNat
            · have hz2 : t.getD s.toNat zeroAlloc = zeroAlloc := by
                rw [← hjs]
                exact hz
              apply qZ j hj
              rw [pZ hz2]
              exact hz
            · apply qZ j hj
              rw [pU j hjs hj]
              exact hz
      · simp only [if_neg helig]
        have hcond : ¬ (((t, need) : List DayAlloc × Int).2 ≤ 0) :=
          fun h => absurd h (by omega)
        rw [if_neg hcond]
        exact ih t mind need hd0 hdl hss hnn hneed

theorem donorScan_covers (d : Int) (scan : List Int) :
    ∀ (t : List DayAlloc) (mind need : Int),
      0 ≤ mind → 0 < need → need ≤ mind →
      0 ≤ d → d.toNat < t.length →
      (∀ x ∈ scan, 0 ≤ x ∧ x.toNat < t.length) →
      NonNegT t →
      (∃ s, s ∈ scan ∧ s ≠ d
        ∧ (mind ≤ daySum (t.getD s.toNat zeroAlloc) - need
            ∨ mind + 60 < daySum (t.getD s.toNat zeroAlloc))) →
      daySum ((donorScan mind scan t d need).getD d.toNat zeroAlloc)
        = daySum (t.getD d.toNat zeroAlloc) + need := by
  induction scan with
  | nil =>
    intro t mind need _ _ _ _ _ _ _ hex
    obtain ⟨w, hw, _⟩ := hex
    simp at hw
  | cons s ss ih =>
    intro t mind need hm0 hneed hnm hd0 hdl hscan hnn hex
    have hss : ∀ x ∈ ss, 0 ≤ x ∧ x.toNat < t.length :=
      fun x hx => hscan x (by simp [hx])
    obtain ⟨w, hw, hwd, hwe⟩ := hex
    by_cases hsd : s = d
    · simp only [donorScan, if_pos hsd]
      apply ih t mind need hm0 hneed hnm hd0 hdl hss hnn
      refine ⟨w, ?_, hwd, hwe⟩
      rcases List.mem_cons.mp hw with h | h
      · exfalso
        exact hwd (h ▸ hsd)
      · exact h
    · have hs := hscan s (by simp)
      have hsdnat : s.toNat ≠ d.toNat := by
        intro h
        apply hsd
        rw [← Int.toNat_of_nonneg hs.1, ← Int.toNat_of_nonneg hd0, h]
      simp only [donorScan, if_neg hsd]
      by_cases helig : mind ≤ daySum (t.getD s.toNat zeroAlloc) - need
          ∨ mind + 60 < daySum (t.getD s.toNat zeroAlloc)
      · simp only [if_pos helig]
        obtain ⟨pA, pB1, pB2, pG, pN, pS, pD, pU, pT, pZ⟩ :=
          pullKinds_spec s d [Kind.review, Kind.exo, Kind.learn, Kind.mock] t need
            hsdnat hs.2 hdl (by decide) hnn hneed
        have hsum : ((([Kind.review, Kind.exo, Kind.learn, Kind.mock]).map
            (fun k2 => (t.getD s.toNat zeroAlloc).get k2)).sum)
            = daySum (t.getD s.toNat zeroAlloc) :=
          kindsSum_daySum (t.getD s.toNat zeroAlloc)
        have hsrc : need ≤ daySum (t.getD s.toNat zeroAlloc) := by
          rcases helig with h | h <;> omega
        rw [hsum] at pG
        have h2 :
            (pullKinds s d [Kind.review, Kind.exo, Kind.learn, Kind.mock] t need).2 ≤ 0 := by
          omega
        simp only [if_pos h2]
        rw [pD]
        omega
      · simp only [if_neg helig]
        have hcond : ¬ (((t, need) : List DayAlloc × Int).2 ≤ 0) :=
          fun h => absurd h (by omega)
        rw [if_neg hcond]
        apply ih t mind need hm0 hneed hnm hd0 hdl hss hnn
        refine ⟨w, ?_, hwd, hwe⟩
        rcases List.mem_cons.mp hw with h | h
        · exfalso
          apply helig
          rw [h] at hwe
          exact hwe
        · exact h

theorem pullKinds_length (s d : Int) (K : List Kind) :
    ∀ (t : List DayAlloc) (need : Int),
      (pullKinds s d K t need).1.length = t.length := by
  induction K with
  | nil => intro t need; rfl
  | cons k ks ih =>
    intro t need
    simp only [pullKinds]
    split_ifs with h1
    · exact pull1_length t s d k need
    · rw [ih]
      exact pull1_length t s d k need

theorem donorScan_length (mind d : Int) (scan : List Int) :
    ∀ (t : List DayAlloc) (need : Int),
      (donorScan mind scan t d need).length = t.length := by
  induction scan with
  | nil => intro t need; rfl
  | cons s ss ih =>
    intro t need
    simp only [donorScan]
    split_ifs with h1 h2 h3 h4 h5
    · exact ih t need
    · exact pullKinds_length s d _ t need
    · rw [ih]
      exact pullKinds_length s d _ t need
    · rfl
    · exact ih t need

/-! The rebalancing pass: combined invariant preservation. -/

theorem rebalance_fold_spec (b : List Int) (mind : Int) (scanRev : List Int)
    (days : List Int) :
    ∀ (t : List DayAlloc),
      NonNegT t →
      (∀ x ∈ days, 0 ≤ x ∧ x.toNat < t.length) →
      (∀ x ∈ scanRev, 0 ≤ x ∧ x.toNat < t.length) →
      (days.foldl (rebalanceStep b mind scanRev) t).length = t.length
      ∧ NonNegT (days.foldl (rebalanceStep b mind scanRev) t)
      ∧ tableSum (days.foldl (rebalanceStep b mind scanRev) t) = tableSum t
      ∧ (∀ maxd : Int, CapT maxd t → mind ≤ maxd →
          CapT maxd (days.foldl (rebalanceStep b mind scanRev) t))
      ∧ (BlockedZeroT b t →
          BlockedZeroT b (days.foldl (rebalanceStep b mind scanRev) t)) := by
  induction days with
  | nil =>
    intro t hnn _ _
    exact ⟨rfl, hnn, rfl, fun maxd hc _ => hc, fun hbz => hbz⟩
  | cons dc rest ih =>
    intro t hnn hdays hscan
    have hdc := hdays dc (by simp)
    have hrest : ∀ x ∈ rest, 0 ≤ x ∧ x.toNat < t.length :=
      fun x hx => hdays x (by simp [hx])
    rw [List.foldl_cons]
    by_cases hb : dc ∈ b
    · have ht1 : rebalanceStep b mind scanRev t dc = t := by
        simp only [rebalanceStep]
        rw [if_pos hb]
      rw [ht1]
      exact ih t hnn hrest hscan
    · by_cases hz0 : daySum (t.getD dc.toNat zeroAlloc) = 0
      · have ht1 : rebalanceStep b mind scanRev t dc = t := by
          simp only [rebalanceStep]
          rw [if_neg hb, if_pos hz0]
        rw [ht1]
        exact ih t hnn hrest hscan
      · by_cases hlt : daySum (t.getD dc.toNat zeroAlloc) < mind
        · have ht1 : rebalanceStep b mind scanRev t dc
              = donorScan mind scanRev t dc
                  (mind - daySum (t.getD dc.toNat zeroAlloc)) := by
            simp only [rebalanceStep]
            rw [if_neg hb, if_neg hz0, if_pos hlt]
          obtain ⟨dA, dB, dC, dD, dT, dZ⟩ :=
            donorScan_spec dc scanRev t mind
              (mind - daySum (t.getD dc.toNat zeroAlloc)) hdc.1 hdc.2 hscan hnn
              (by omega)
          rw [ht1]
          have hrest1 : ∀ x ∈ rest, 0 ≤ x ∧ x.toNat <
              (donorScan mind scanRev t dc
                (mind - daySum (t.getD dc.toNat zeroAlloc))).length := by
            rw [dA]
            exact hrest
          have hscan1 : ∀ x ∈ scanRev, 0 ≤ x ∧ x.toNat <
              (donorScan mind scanRev t dc
                (mind - daySum (t.getD dc.toNat zeroAlloc))).length := by
            rw [dA]
            exact hscan
          obtain ⟨iA, iB, iC, iD, iE⟩ := ih _ dB hrest1 hscan1
          refine ⟨by rw [iA, dA], iB, by rw [iC, dT], ?_, ?_⟩
          · intro maxd hcap hmm
            apply iD maxd ?_ hmm
            intro j hj
            rw [dA] at hj
            by_cases hjd : j = dc.toNat
            · subst hjd
              omega
            · have h5 := dC j hjd
              have h6 := hcap j hj
              omega
          · intro hbz
            apply iE
            intro j hj hjb
            rw [dA] at hj
            have hjz : t.getD j zeroAlloc = zeroAlloc := hbz j hj hjb
            have hjdc : j ≠ dc.toNat := by
              intro hEq
              apply hb
              have hcst : (dc.toNat : Int) = dc := Int.toNat_of_nonneg hdc.1
              rw [← hcst, ← hEq]
              exact hjb
            exact dZ j hjdc hjz
        · have ht1 : rebalanceStep b mind scanRev t dc = t := by
            simp only [rebalanceStep]
            rw [if_neg hb, if_neg hz0, if_neg hlt]
          rw [ht1]
          exact ih t hnn hrest hscan

theorem rebalance_spec (b : List Int) (mind : Int) (days : List Int)
    (t : List DayAlloc) (hnn : NonNegT t)
    (hdays : ∀ x ∈ days, 0 ≤ x ∧ x.toNat < t.length) :
    (rebalance b mind days t).length = t.length
    ∧ NonNegT (rebalance b mind days t)
    ∧ tableSum (rebalance b mind days t) = tableSum t
    ∧ (∀ maxd : Int, CapT maxd t → mind ≤ maxd →
        CapT maxd (rebalance b mind days t))
    ∧ (BlockedZeroT b t → BlockedZeroT b (rebalance b mind days t)) := by
  have hscan : ∀ x ∈ days.reverse, 0 ≤ x ∧ x.toNat < t.length := by
    intro x hx
    exact hdays x (List.mem_reverse.mp hx)
  exact rebalance_fold_spec b mind days.reverse days t hnn hdays hscan

/-! Facts about the day-order lists. -/

theorem daysIdx_mem (D : Int) : ∀ x ∈ daysIdxOf D, 0 ≤ x ∧ x.toNat < D.toNat := by
  intro x hx
  unfold daysIdxOf at hx
  obtain ⟨n, hn, rfl⟩ := List.mem_map.mp hx
  have := List.mem_range.mp hn
  omega

theorem daysIdx_nodup (D : Int) : (daysIdxOf D).Nodup := by
  unfold daysIdxOf
  refine List.Nodup.map ?_ (List.nodup_range _)
  intro a b h
  simpa using h

theorem daysIdx_length (D : Int) : (daysIdxOf D).length = D.toNat := by
  simp [daysIdxOf]

theorem daysRev_mem (D : Int) : ∀ x ∈ daysRevOf D, 0 ≤ x ∧ x.toNat < D.toNat := by
  intro x hx
  exact daysIdx_mem D x (List.mem_reverse.mp hx)

theorem exoOrder_mem (D : Int) : ∀ x ∈ exoOrderOf D, 0 ≤ x ∧ x.toNat < D.toNat := by
  intro x hx
  unfold exoOrderOf at hx
  split_ifs at hx
  · exact daysIdx_mem D x (List.mem_of_mem_drop hx)
  · exact daysIdx_mem D x hx

theorem mockOrder_mem (D : Int) : ∀ x ∈ mockOrderOf D, 0 ≤ x ∧ x.toNat < D.toNat := by
  intro x hx
  unfold mockOrderOf at hx
  split_ifs at hx
  · exact daysIdx_mem D x hx
  · exact daysIdx_mem D x (List.mem_of_mem_filter hx)

/-! Lemmas about one placement pass. -/

theorem planPass_length (b : List Int) (maxd : Int) (k : Kind) (m : Int)
    (o sp : List Int) (t : List DayAlloc) :
    (planPass b maxd k m o sp t).length = t.length := by
  unfold planPass
  split_ifs
  · rw [push_length, push_length]
  · rw [push_length]

theorem planPass_nonneg (b : List Int) (maxd : Int) (k : Kind) (m : Int)
    (o sp : List Int) (t : List DayAlloc) (hm : 0 ≤ m) (hnn : NonNegT t) :
    NonNegT (planPass b maxd k m o sp t) := by
  unfold planPass
  split_ifs with h
  · exact push_nonneg b maxd k sp _ _ (by omega) (push_nonneg b maxd k o m t hm hnn)
  · exact push_nonneg b maxd k o m t hm hnn

theorem planPass_cap (b : List Int) (maxd : Int) (k : Kind) (m : Int)
    (o sp : List Int) (t : List DayAlloc) (hc : CapT maxd t) :
    CapT maxd (planPass b maxd k m o sp t) := by
  unfold planPass
  split_ifs with h
  · exact push_cap b maxd k sp _ _ (push_cap b maxd k o m t hc)
  · exact push_cap b maxd k o m t hc

theorem planPass_blockedZero (b : List Int) (maxd : Int) (k : Kind) (m : Int)
    (o sp : List Int) (t : List DayAlloc)
    (ho : ∀ d ∈ o, 0 ≤ d) (hsp : ∀ d ∈ sp, 0 ≤ d)
    (hbz : BlockedZeroT b t) : BlockedZeroT b (planPass b maxd k m o sp t) := by
  intro j hj hjb
  rw [planPass_length] at hj
  unfold planPass
  split_ifs with h
  · rw [push_blocked_untouched b maxd k sp _ _ j hsp hjb,
      push_blocked_untouched b maxd k o m t j ho hjb]
    exact hbz j hj hjb
  · rw [push_blocked_untouched b maxd k o m t j ho hjb]
    exact hbz j hj hjb

theorem planPass_untouched (b : List Int) (maxd : Int) (k : Kind) (m : Int)
    (o sp : List Int) (t : List DayAlloc) (j : Nat)
    (ho : ∀ d ∈ o, d.toNat ≠ j) (hsp : ∀ d ∈ sp, d.toNat ≠ j) :
    (planPass b maxd k m o sp t).getD j zeroAlloc = t.getD j zeroAlloc := by
  unfold planPass
  split_ifs with h
  · rw [push_untouched b maxd k sp _ _ j hsp, push_untouched b maxd k o m t j ho]
  · rw [push_untouched b maxd k o m t j ho]

theorem planPass_get_ne_kind (b : List Int) (maxd : Int) (k : Kind) (m : Int)
    (o sp : List Int) (t : List DayAlloc) (j : Nat) (k2 : Kind) (hk : k2 ≠ k) :
    ((planPass b maxd k m o sp t).getD j zeroAlloc).get k2
      = (t.getD j zeroAlloc).get k2 := by
  unfold planPass
  split_ifs with h
  · rw [push_get_ne_kind b maxd k sp _ _ j k2 hk, push_get_ne_kind b maxd k o m t j k2 hk]
  · rw [push_get_ne_kind b maxd k o m t j k2 hk]

/-! Facts about the review waves. -/

theorem reviewWaves_length_pos (D : Int) : 0 < (reviewWaves D).length := by
  unfold reviewWaves
  split_ifs <;> first
    | (apply List.length_pos.mpr; assumption)
    | simp

theorem reviewWaves_mem (D : Int) (hD : 1 ≤ D) :
    ∀ a ∈ reviewWaves D, 0 ≤ a ∧ a ≤ D - 1 := by
  intro a ha
  have h0 : a = 0 ∨ a = min 1 (D - 1) ∨ a = min 3 (D - 1) ∨ a = min 7 (D - 1) := by
    unfold reviewWaves at ha
    split_ifs at ha <;> simp at ha <;> tauto
  rcases h0 with rfl | rfl | rfl | rfl <;> omega

theorem around_mem (D a : Int) (hD : 1 ≤ D) (ha0 : 0 ≤ a) (ha1 : a ≤ D - 1) :
    ∀ x ∈ around D a, 0 ≤ x ∧ x.toNat < D.toNat := by
  intro x hx
  unfold around at hx
  simp only [List.mem_append, List.mem_singleton] at hx
  rcases hx with (hx | hx) | hx
  · omega
  · split_ifs at hx with hc
    · simp at hx
    · simp at hx
      omega
  · split_ifs at hx with hc
    · simp at hx
    · simp at hx
      omega

theorem waveMinutes_nonneg (R W : Int) (hR : 0 ≤ R) (hW : 0 < W) (i : Nat) :
    0 ≤ waveMinutes R W i := by
  unfold waveMinutes waveShare
  have h1 : 0 ≤ R / W := Int.ediv_nonneg hR (le_of_lt hW)
  split_ifs <;> omega

/-! The review pass: invariant preservation over the wave fold. -/

theorem reviewFold_spec (b : List Int) (maxd R D W0 : Int) :
    ∀ (ws : List (Nat × Int)) (t : List DayAlloc),
      (∀ iw ∈ ws, ∀ x ∈ around D iw.2, 0 ≤ x) →
      (∀ iw ∈ ws, 0 ≤ waveMinutes R W0 iw.1) →
      (ws.foldl (fun tt iw =>
          planPass b maxd Kind.review (waveMinutes R W0 iw.1) (around D iw.2)
            (daysIdxOf D) tt) t).length = t.length
      ∧ (NonNegT t → NonNegT (ws.foldl (fun tt iw =>
          planPass b maxd Kind.review (waveMinutes R W0 iw.1) (around D iw.2)
            (daysIdxOf D) tt) t))
      ∧ (CapT maxd t → CapT maxd (ws.foldl (fun tt iw =>
          planPass b maxd Kind.review (waveMinutes R W0 iw.1) (around D iw.2)
            (daysIdxOf D) tt) t))
      ∧ (BlockedZeroT b t → BlockedZeroT b (ws.foldl (fun tt iw =>
          planPass b maxd Kind.review (waveMinutes R W0 iw.1) (around D iw.2)
            (daysIdxOf D) tt) t)) := by
  intro ws
  induction ws with
  | nil =>
    intro t _ _
    exact ⟨rfl, fun h => h, fun h => h, fun h => h⟩
  | cons iw rest ih =>
    intro t hwin hwm
    have hw := hwin iw (by simp)
    have hm := hwm iw (by simp)
    have hrest1 : ∀ x ∈ rest, ∀ y ∈ around D x.2, 0 ≤ y :=
      fun x hx => hwin x (by simp [hx])
    have hrest2 : ∀ x ∈ rest, 0 ≤ waveMinutes R W0 x.1 :=
      fun x hx => hwm x (by simp [hx])
    rw [List.foldl_cons]
    obtain ⟨iA, iB, iC, iD⟩ := ih
      (planPass b maxd Kind.review (waveMinutes R W0 iw.1) (around D iw.2)
        (daysIdxOf D) t) hrest1 hrest2
    refine ⟨by rw [iA, planPass_length], ?_, ?_, ?_⟩
    · intro hnn
      exact iB (planPass_nonneg _ _ _ _ _ _ _ hm hnn)
    · intro hc
      exact iC (planPass_cap _ _ _ _ _ _ _ hc)
    · intro hbz
      exact iD (planPass_blockedZero _ _ _ _ _ _ _ hw
        (fun d hd => (daysIdx_mem D d hd).1) hbz)

theorem getD_replicate (n i : Nat) (a d0 : DayAlloc) (h : i < n) :
    (List.replicate n a).getD i d0 = a := by
  induction n generalizing i with
  | zero => omega
  | succ m ih =>
    cases i with
    | zero => rfl
    | succ j => simpa [List.replicate] using ih j (by omega)

theorem enum_snd_mem {α : Type} (l : List α) :
    ∀ iw ∈ l.enum, iw.2 ∈ l := by
  intro iw hiw
  have h := List.enum_map_snd l
  rw [← h]
  exact List.mem_map_of_mem _ hiw

theorem reviewPass_spec (b : List Int) (maxd R D : Int) (hD : 1 ≤ D) (hR : 0 ≤ R)
    (t : List DayAlloc) :
    (reviewPass b maxd R D t).length = t.length
    ∧ (NonNegT t → NonNegT (reviewPass b maxd R D t))
    ∧ (CapT maxd t → CapT maxd (reviewPass b maxd R D t))
    ∧ (BlockedZeroT b t → BlockedZeroT b (reviewPass b maxd R D t)) := by
  unfold reviewPass
  apply reviewFold_spec
  · intro iw hiw x hx
    have h2 := reviewWaves_mem D hD iw.2 (enum_snd_mem _ iw hiw)
    exact (around_mem D iw.2 hD h2.1 h2.2 x hx).1
  · intro iw _
    refine waveMinutes_nonneg R _ hR ?_ iw.1
    exact_mod_cast reviewWaves_length_pos D

theorem passesTable_spec (L E R M : Int) (c : Constraints)
    (hD : 1 ≤ c.days_available) (hL : 0 ≤ L) (hE : 0 ≤ E) (hR : 0 ≤ R)
    (hM : 0 ≤ M) :
    (passesTable L E R M c).length = c.days_available.toNat
    ∧ NonNegT (passesTable L E R M c)
    ∧ (0 ≤ c.max_minutes_per_day →
        CapT c.max_minutes_per_day (passesTable L E R M c))
    ∧ BlockedZeroT c.blocked_days (passesTable L E R M c) := by
  have ht0len : (List.replicate c.days_available.toNat zeroAlloc).length
      = c.days_available.toNat := by simp
  have ht0nn : NonNegT (List.replicate c.days_available.toNat zeroAlloc) := by
    intro i hi
    rw [ht0len] at hi
    rw [getD_replicate _ _ _ _ hi]
    exact allNonneg_zeroAlloc
  have ht0bz : BlockedZeroT c.blocked_days
      (List.replicate c.days_available.toNat zeroAlloc) := by
    intro i hi _
    rw [ht0len] at hi
    exact getD_replicate _ _ _ _ hi
  obtain ⟨r3A, r3B, r3C, r3D⟩ :=
    reviewPass_spec c.blocked_days c.max_minutes_per_day R c.days_available hD hR
      (planPass c.blocked_days c.max_minutes_per_day Kind.exo E
        (exoOrderOf c.days_available) (daysRevOf c.days_available)
        (planPass c.blocked_days c.max_minutes_per_day Kind.learn L
          (daysIdxOf c.days_available) (daysRevOf c.days_available)
          (List.replicate c.days_available.toNat zeroAlloc)))
  unfold passesTable preMockTable
  refine ⟨?_, ?_, ?_, ?_⟩
  · rw [planPass_length, r3A, planPass_length, planPass_length, ht0len]
  · apply planPass_nonneg _ _ _ _ _ _ _ hM
    apply r3B
    apply planPass_nonneg _ _ _ _ _ _ _ hE
    exact planPass_nonneg _ _ _ _ _ _ _ hL ht0nn
  · intro hmax
    have ht0cap : CapT c.max_minutes_per_day
        (List.replicate c.days_available.toNat zeroAlloc) := by
      intro i hi
      rw [ht0len] at hi
      rw [getD_replicate _ _ _ _ hi]
      simpa [daySum_zeroAlloc] using hmax
    apply planPass_cap
    apply r3C
    apply planPass_cap
    exact planPass_cap _ _ _ _ _ _ _ ht0cap
  · apply planPass_blockedZero _ _ _ _ _ _ _
      (fun d hd => (mockOrder_mem c.days_available d hd).1)
      (fun d hd => (daysRev_mem c.days_available d hd).1)
    apply r3D
    apply planPass_blockedZero _ _ _ _ _ _ _
      (fun d hd => (exoOrder_mem c.days_available d hd).1)
      (fun d hd => (daysRev_mem c.days_available d hd).1)
    exact planPass_blockedZero _ _ _ _ _ _ _
      (fun d hd => (daysIdx_mem c.days_available d hd).1)
      (fun d hd => (daysRev_mem c.days_available d hd).1) ht0bz

theorem finalTable_spec (L E R M : Int) (c : Constraints)
    (hD : 1 ≤ c.days_available) (hL : 0 ≤ L) (hE : 0 ≤ E) (hR : 0 ≤ R)
    (hM : 0 ≤ M) :
    (finalTable L E R M c).length = c.days_available.toNat
    ∧ NonNegT (finalTable L E R M c)
    ∧ (0 ≤ c.max_minutes_per_day
        ∧ c.min_minutes_per_day ≤ c.max_minutes_per_day →
        CapT c.max_minutes_per_day (finalTable L E R M c))
    ∧ BlockedZeroT c.blocked_days (finalTable L E R M c) := by
  obtain ⟨pA, pB, pC, pD⟩ := passesTable_spec L E R M c hD hL hE hR hM
  have hdays : ∀ x ∈ daysIdxOf c.days_available,
      0 ≤ x ∧ x.toNat < (passesTable L E R M c).length := by
    intro x hx
    rw [pA]
    exact daysIdx_mem c.days_available x hx
  obtain ⟨rA, rB, rC, rD, rE⟩ :=
    rebalance_spec c.blocked_days c.min_minutes_per_day
      (daysIdxOf c.days_available) (passesTable L E R M c) pB hdays
  unfold finalTable
  refine ⟨by rw [rA, pA], rB, ?_, rE pD⟩
  intro hmm
  exact rD c.max_minutes_per_day (pC hmm.1) hmm.2

/-! Grand-total preservation of the rebalancing pass, for arbitrary tables. -/

theorem pullKinds_tableSum (s d : Int) (K : List Kind) :
    ∀ (t : List DayAlloc) (need : Int),
      s.toNat ≠ d.toNat → s.toNat < t.length → d.toNat < t.length →
      tableSum (pullKinds s d K t need).1 = tableSum t := by
  induction K with
  | nil => intro t need _ _ _; rfl
  | cons k ks ih =>
    intro t need hsd hsl hdl
    simp only [pullKinds]
    split_ifs with h1
    · exact pull1_tableSum t s d k need hsd hsl hdl
    · rw [ih (pull1 t s d k need).1 (pull1 t s d k need).2 hsd
        (by rw [pull1_length]; exact hsl) (by rw [pull1_length]; exact hdl)]
      exact pull1_tableSum t s d k need hsd hsl hdl

theorem donorScan_tableSum (mind d : Int) (scan : List Int) :
    ∀ (t : List DayAlloc) (need : Int),
      0 ≤ d → d.toNat < t.length →
      (∀ x ∈ scan, 0 ≤ x ∧ x.toNat < t.length) →
      tableSum (donorScan mind scan t d need) = tableSum t := by
  induction scan with
  | nil => intro t need _ _ _; rfl
  | cons s ss ih =>
    intro t need hd0 hdl hscan
    have hss : ∀ x ∈ ss, 0 ≤ x ∧ x.toNat < t.length :=
      fun x hx => hscan x (by simp [hx])
    by_cases hsd : s = d
    · simp only [donorScan, if_pos hsd]
      exact ih t need hd0 hdl hss
    · have hs := hscan s (by simp)
      have hsdnat : s.toNat ≠ d.toNat := by
        intro h
        apply hsd
        rw [← Int.toNat_of_nonneg hs.1, ← Int.toNat_of_nonneg hd0, h]
      simp only [donorScan, if_neg hsd]
      by_cases helig : mind ≤ daySum (t.getD s.toNat zeroAlloc) - need
          ∨ mind + 60 < daySum (t.getD s.toNat zeroAlloc)
      · simp only [if_pos helig]
        by_cases h2 :
            (pullKinds s d [Kind.review, Kind.exo, Kind.learn, Kind.mock] t need).2 ≤ 0
        · simp only [if_pos h2]
          exact pullKinds_tableSum s d _ t need hsdnat hs.2 hdl
        · simp only [if_neg h2]
          rw [ih _ _ hd0 (by rw [pullKinds_length]; exact hdl)
            (by rw [pullKinds_length]; exact hss)]
          exact pullKinds_tableSum s d _ t need hsdnat hs.2 hdl
      · simp only [if_neg helig]
        by_cases h2 : (((t, need) : List DayAlloc × Int)).2 ≤ 0
        · rw [if_pos h2]
        · rw [if_neg h2]
          exact ih t need hd0 hdl hss

theorem rebalance_fold_tableSum (b : List Int) (mind : Int) (scanRev : List Int)
    (days : List Int) :
    ∀ (t : List DayAlloc),
      (∀ x ∈ days, 0 ≤ x ∧ x.toNat < t.length) →
      (∀ x ∈ scanRev, 0 ≤ x ∧ x.toNat < t.length) →
      tableSum (days.foldl (rebalanceStep b mind scanRev) t) = tableSum t := by
  induction days with
  | nil => intro t _ _; rfl
  | cons dc rest ih =>
    intro t hdays hscan
    have hdc := hdays dc (by simp)
    have hrest : ∀ x ∈ rest, 0 ≤ x ∧ x.toNat < t.length :=
      fun x hx => hdays x (by simp [hx])
    rw [List.foldl_cons]
    by_cases hb : dc ∈ b
    · have ht1 : rebalanceStep b mind scanRev t dc = t := by
        simp only [rebalanceStep]
        rw [if_pos hb]
      rw [ht1]
      exact ih t hrest hscan
    · by_cases hz0 : daySum (t.getD dc.toNat zeroAlloc) = 0
      · have ht1 : rebalanceStep b mind scanRev t dc = t := by
          simp only [rebalanceStep]
          rw [if_neg hb, if_pos hz0]
        rw [ht1]
        exact ih t hrest hscan
      · by_cases hlt : daySum (t.getD dc.toNat zeroAlloc) < mind
        · have ht1 : rebalanceStep b mind scanRev t dc
              = donorScan mind scanRev t dc
                  (mind - daySum (t.getD dc.toNat zeroAlloc)) := by
            simp only [rebalanceStep]
            rw [if_neg hb, if_neg hz0, if_pos hlt]
          rw [ht1]
          have hlen : (donorScan mind scanRev t dc
              (mind - daySum (t.getD dc.toNat zeroAlloc))).length = t.length :=
            donorScan_length mind dc scanRev t _
          have h5 := donorScan_tableSum mind dc scanRev t
            (mind - daySum (t.getD dc.toNat zeroAlloc)) hdc.1 hdc.2 hscan
          rw [ih _ (by rw [hlen]; exact hrest) (by rw [hlen]; exact hscan), h5]
        · have ht1 : rebalanceStep b mind scanRev t dc = t := by
            simp only [rebalanceStep]
            rw [if_neg hb, if_neg hz0, if_neg hlt]
          rw [ht1]
          exact ih t hrest hscan


/-! Claim theorems. -/

/-- C1: the claim says that when total demand exceeds total capacity the
engine still places every minute by pushing the remainder past the nominal
cap, so the bucket sum stays at least the budget sum.  The code does not:
`push` skips any day whose remaining capacity is non-positive even during
the spillover pass, so excess minutes vanish.  At the failing input
(learn=20, one day, cap 10) the returned schedule holds 10 minutes and the
other 10 are silently dropped. -/
theorem c1_overflow_drops_minutes :
    distribute_minutes_over_days 20 0 0 0 ⟨1, 10, 0, []⟩ = [⟨0, none, 10, 0, 0, 0⟩]
    ∧ ((distribute_minutes_over_days 20 0 0 0 ⟨1, 10, 0, []⟩).map itemTotal).sum = 10
    ∧ ¬ (20 + 0 + 0 + 0
        ≤ ((distribute_minutes_over_days 20 0 0 0 ⟨1, 10, 0, []⟩).map itemTotal).sum) := by
  decide

/-- C2 counterexample: a configuration with
min_minutes_per_day = 100 > max_minutes_per_day = 50 is not rejected: the
engine runs to completion and returns a schedule, contradicting the claim
that such calls fail with a descriptive error before any allocation. -/
theorem c2_counterexample_min_gt_max :
    distributeE 30 0 0 0 ⟨1, 50, 100, []⟩ = Except.ok [⟨0, none, 30, 0, 0, 0⟩] := by
  rfl

/-- C2 (amended): the engine performs no configuration validation at all:
for every budget and every constraint record with at least one day, the run
returns successfully, even when min_minutes_per_day exceeds
max_minutes_per_day or blocked_days covers every day. -/
theorem c2_no_config_validation (L E R M : Int) (c : Constraints)
    (hD : 1 ≤ c.days_available) : (distributeE L E R M c).isOk = true := by
  unfold distributeE
  rw [if_pos hD]
  rfl

/-- Witness for C2: the amended theorem applied to the min > max input. -/
theorem c2_no_config_validation_witness :
    (1 : Int) ≤ (1 : Int)
    ∧ (distributeE 30 0 0 0 ⟨1, 50, 100, []⟩).isOk = true :=
  ⟨by decide, c2_no_config_validation 30 0 0 0 ⟨1, 50, 100, []⟩ (by decide)⟩

/-- C3: for every valid input, after all placement passes and the
rebalancing pass, every day listed in blocked_days has all four buckets
equal to zero in the returned PlanItem list.  The donor scan of the
rebalancing pass never moves minutes out of (or into) a blocked day: a
blocked day holds zero in every bucket, so it is either ineligible as a
donor or donates zero. -/
theorem c3_blocked_days_all_zero (L E R M : Int) (c : Constraints)
    (hD : 1 ≤ c.days_available)
    (hblk : ∀ x ∈ c.blocked_days, 0 ≤ x ∧ x < c.days_available)
    (hL : 0 ≤ L) (hE : 0 ≤ E) (hR : 0 ≤ R) (hM : 0 ≤ M) :
    ∀ item ∈ distribute_minutes_over_days L E R M c,
      item.day_index ∈ c.blocked_days →
      item.learn_min = 0 ∧ item.exercises_min = 0 ∧ item.review_min = 0
        ∧ item.mock_min = 0 := by
  intro item hitem hb
  unfold distribute_minutes_over_days at hitem
  obtain ⟨d, hd, rfl⟩ := List.mem_map.mp hitem
  have hdlt : d < c.days_available.toNat := List.mem_range.mp hd
  obtain ⟨fA, fB, fC, fD⟩ := finalTable_spec L E R M c hD hL hE hR hM
  have hz := fD d (by rw [fA]; exact hdlt) hb
  exact ⟨by rw [hz]; rfl, by rw [hz]; rfl, by rw [hz]; rfl, by rw [hz]; rfl⟩

/-- Witness for C3 at a concrete input with day 2 blocked. -/
theorem c3_blocked_days_all_zero_witness :
    ((1 : Int) ≤ 4 ∧ (∀ x ∈ ([2] : List Int), 0 ≤ x ∧ x < 4)
      ∧ (0 : Int) ≤ 100 ∧ (0 : Int) ≤ 50 ∧ (0 : Int) ≤ 30 ∧ (0 : Int) ≤ 20)
    ∧ (∀ item ∈ distribute_minutes_over_days 100 50 30 20 ⟨4, 240, 60, [2]⟩,
        item.day_index ∈ ([2] : List Int) →
        item.learn_min = 0 ∧ item.exercises_min = 0 ∧ item.review_min = 0
          ∧ item.mock_min = 0) :=
  ⟨by decide,
    c3_blocked_days_all_zero 100 50 30 20 ⟨4, 240, 60, [2]⟩ (by decide) (by decide)
      (by decide) (by decide) (by decide) (by decide)⟩

/-- C4: under min_minutes_per_day ≤ max_minutes_per_day (and validity of the
other inputs), no non-blocked day of the returned schedule exceeds
max_minutes_per_day.  The proof gives the stronger fact that no day at all
exceeds the cap: the placement passes respect remaining capacity even in
spillover, and the rebalancing pass only raises a needy day up to
min_minutes_per_day while donors shrink, so capacity overflow never makes
the code exceed the cap either (in overflow it drops minutes instead,
see C1). -/
theorem c4_cap_never_exceeded (L E R M : Int) (c : Constraints)
    (hD : 1 ≤ c.days_available)
    (hmind : 0 ≤ c.min_minutes_per_day)
    (hmm : c.min_minutes_per_day ≤ c.max_minutes_per_day)
    (hblk : ∀ x ∈ c.blocked_days, 0 ≤ x ∧ x < c.days_available)
    (hL : 0 ≤ L) (hE : 0 ≤ E) (hR : 0 ≤ R) (hM : 0 ≤ M) :
    ∀ item ∈ distribute_minutes_over_days L E R M c,
      item.day_index ∉ c.blocked_days →
      itemTotal item ≤ c.max_minutes_per_day := by
  intro item hitem _
  unfold distribute_minutes_over_days at hitem
  obtain ⟨d, hd, rfl⟩ := List.mem_map.mp hitem
  have hdlt : d < c.days_available.toNat := List.mem_range.mp hd
  obtain ⟨fA, fB, fC, fD⟩ := finalTable_spec L E R M c hD hL hE hR hM
  have hc := fC ⟨by omega, hmm⟩ d (by rw [fA]; exact hdlt)
  simpa [itemTotal, daySum] using hc

/-- Witness for C4 at the C9 scenario input. -/
theorem c4_cap_never_exceeded_witness :
    ((1 : Int) ≤ 5 ∧ (0 : Int) ≤ 60 ∧ (60 : Int) ≤ 240
      ∧ (∀ x ∈ ([] : List Int), 0 ≤ x ∧ x < 5)
      ∧ (0 : Int) ≤ 600 ∧ (0 : Int) ≤ 300 ∧ (0 : Int) ≤ 120 ∧ (0 : Int) ≤ 0)
    ∧ (∀ item ∈ distribute_minutes_over_days 600 300 120 0 ⟨5, 240, 60, []⟩,
        item.day_index ∉ ([] : List Int) → itemTotal item ≤ 240) :=
  ⟨by decide,
    c4_cap_never_exceeded 600 300 120 0 ⟨5, 240, 60, []⟩ (by decide) (by decide)
      (by decide) (by decide) (by decide) (by decide) (by decide) (by decide)⟩

/-- C5: for every per-day table handed to the rebalancing pass, the pass
preserves the grand total of all buckets over all days: every transfer
removes from the donor exactly what it adds to the needy day. -/
theorem c5_rebalance_preserves_grand_total (b : List Int) (mind : Int)
    (days : List Int) (t : List DayAlloc)
    (hdays : ∀ x ∈ days, 0 ≤ x ∧ x.toNat < t.length) :
    tableSum (rebalance b mind days t) = tableSum t := by
  unfold rebalance
  exact rebalance_fold_tableSum b mind days.reverse days t hdays
    (fun x hx => hdays x (List.mem_reverse.mp hx))

/-- Witness for C5 on a table where a transfer actually happens
(day 0 holds 10 < 60 and pulls 50 from day 1). -/
theorem c5_rebalance_preserves_grand_total_witness :
    (∀ x ∈ ([0, 1] : List Int), 0 ≤ x
      ∧ x.toNat < ([⟨10, 0, 0, 0⟩, ⟨200, 0, 0, 0⟩] : List DayAlloc).length)
    ∧ tableSum (rebalance [] 60 [0, 1] [⟨10, 0, 0, 0⟩, ⟨200, 0, 0, 0⟩])
        = tableSum [⟨10, 0, 0, 0⟩, ⟨200, 0, 0, 0⟩] :=
  ⟨by decide,
    c5_rebalance_preserves_grand_total [] 60 [0, 1]
      [⟨10, 0, 0, 0⟩, ⟨200, 0, 0, 0⟩] (by decide)⟩

/-- C6 counterexample: at days_available=2, max=240, min=60, budget
learn=30, total capacity 480 is at least D_active*min = 120, yet day 0 ends
with nonzero total 30 < 60: no donor holds any minutes, so the feasibility
condition of the claim (total capacity ≥ D_active × min) does not make the
rebalancing succeed. -/
theorem c6_counterexample_capacity_not_sufficient :
    ((60 : Int) * 2 ≤ 240 * 2)
    ∧ ¬ (∀ item ∈ distribute_minutes_over_days 30 0 0 0 ⟨2, 240, 60, []⟩,
          itemTotal item ≠ 0 → 60 ≤ itemTotal item) := by
  decide

/-- C6 (amended): a needy day reaches the floor exactly when its donor scan
finds an eligible donor, one whose current total is at least mind + need or
exceeds mind + 60; an eligible donor always covers the whole need, because
the inner bucket loop drains min(need, donor total) and eligibility forces
donor total ≥ need.  Capacity alone (the condition in the original claim)
guarantees no such donor. -/
theorem c6_eligible_donor_reaches_floor (mind need d : Int) (scan : List Int)
    (t : List DayAlloc) (hnn : NonNegT t) (hm0 : 0 ≤ mind) (hneed : 0 < need)
    (hnm : need ≤ mind) (hd0 : 0 ≤ d) (hdl : d.toNat < t.length)
    (hscan : ∀ x ∈ scan, 0 ≤ x ∧ x.toNat < t.length)
    (hex : ∃ s, s ∈ scan ∧ s ≠ d
      ∧ (mind ≤ daySum (t.getD s.toNat zeroAlloc) - need
          ∨ mind + 60 < daySum (t.getD s.toNat zeroAlloc))) :
    daySum ((donorScan mind scan t d need).getD d.toNat zeroAlloc)
      = daySum (t.getD d.toNat zeroAlloc) + need := by
  apply donorScan_covers d scan t mind need hm0 hneed hnm hd0 hdl hscan hnn
  obtain ⟨s, h1, h2, h3⟩ := hex
  exact ⟨s, h1, h2, h3⟩

/-- Witness for C6: day 0 holds 10 and needs 50; day 1 holds 200, is
eligible, and the scan raises day 0 to exactly 60. -/
theorem c6_eligible_donor_reaches_floor_witness :
    (NonNegT ([⟨10, 0, 0, 0⟩, ⟨200, 0, 0, 0⟩] : List DayAlloc)
      ∧ (0 : Int) ≤ 60 ∧ (0 : Int) < 50 ∧ (50 : Int) ≤ 60 ∧ (0 : Int) ≤ 0
      ∧ (0 : Int).toNat < ([⟨10, 0, 0, 0⟩, ⟨200, 0, 0, 0⟩] : List DayAlloc).length
      ∧ (∀ x ∈ ([1] : List Int), 0 ≤ x
          ∧ x.toNat < ([⟨10, 0, 0, 0⟩, ⟨200, 0, 0, 0⟩] : List DayAlloc).length)
      ∧ (∃ s, s ∈ ([1] : List Int) ∧ s ≠ (0 : Int)
          ∧ (60 ≤ daySum (([⟨10, 0, 0, 0⟩, ⟨200, 0, 0, 0⟩] : List DayAlloc).getD
                s.toNat zeroAlloc) - 50
            ∨ 60 + 60 < daySum (([⟨10, 0, 0, 0⟩, ⟨200, 0, 0, 0⟩] :
                List DayAlloc).getD s.toNat zeroAlloc))))
    ∧ daySum ((donorScan 60 [1] [⟨10, 0, 0, 0⟩, ⟨200, 0, 0, 0⟩] 0 50).getD
        (0 : Int).toNat zeroAlloc)
      = daySum (([⟨10, 0, 0, 0⟩, ⟨200, 0, 0, 0⟩] : List DayAlloc).getD
          (0 : Int).toNat zeroAlloc) + 50 :=
  ⟨by decide,
    c6_eligible_donor_reaches_floor 60 50 0 [1] [⟨10, 0, 0, 0⟩, ⟨200, 0, 0, 0⟩]
      (by decide) (by decide) (by decide) (by decide) (by decide) (by decide)
      (by decide) (by decide)⟩

/-- C9 counterexample: at the scenario input the claim conjunction fails,
because day 4 carries zero exercise minutes (its only activity is the
second review wave of 60 minutes); day 3 does carry 180. -/
theorem c9_counterexample_day4_exercises :
    ¬ ((∀ item ∈ distribute_minutes_over_days 600 300 120 0 ⟨5, 240, 60, []⟩,
          itemTotal item ≤ 240)
      ∧ ((distribute_minutes_over_days 600 300 120 0 ⟨5, 240, 60, []⟩).map
          itemTotal).sum = 1020
      ∧ ((distribute_minutes_over_days 600 300 120 0 ⟨5, 240, 60, []⟩).map
          (fun p => p.exercises_min)).getD 3 0 ≠ 0
      ∧ ((distribute_minutes_over_days 600 300 120 0 ⟨5, 240, 60, []⟩).map
          (fun p => p.exercises_min)).getD 4 0 ≠ 0) := by
  decide

/-- C9 (amended): the scenario evaluates to the schedule below: per-day
totals are 240, 240, 240, 240, 60 (each ≤ 240), the bucket grand total is
1020, day 0 is pure learning, day 3 has 180 nonzero exercise minutes, and
day 4 has zero exercise minutes (60 review minutes only). -/
theorem c9_scenario_schedule :
    distribute_minutes_over_days 600 300 120 0 ⟨5, 240, 60, []⟩ =
      [⟨0, none, 240, 0, 0, 0⟩, ⟨1, none, 240, 0, 0, 0⟩, ⟨2, none, 120, 120, 0, 0⟩,
       ⟨3, none, 0, 180, 60, 0⟩, ⟨4, none, 0, 0, 60, 0⟩]
    ∧ (∀ item ∈ distribute_minutes_over_days 600 300 120 0 ⟨5, 240, 60, []⟩,
        itemTotal item ≤ 240)
    ∧ ((distribute_minutes_over_days 600 300 120 0 ⟨5, 240, 60, []⟩).map
        itemTotal).sum = 1020 := by
  decide

/-- C10: for every valid input every bucket of every returned day is
non-negative: placements add amounts bounded below by zero, and each
rebalancing transfer moves min(donor bucket, remaining need), which never
drives a donor bucket negative. -/
theorem c10_buckets_never_negative (L E R M : Int) (c : Constraints)
    (hD : 1 ≤ c.days_available)
    (hblk : ∀ x ∈ c.blocked_days, 0 ≤ x ∧ x < c.days_available)
    (hL : 0 ≤ L) (hE : 0 ≤ E) (hR : 0 ≤ R) (hM : 0 ≤ M) :
    ∀ item ∈ distribute_minutes_over_days L E R M c,
      0 ≤ item.learn_min ∧ 0 ≤ item.exercises_min ∧ 0 ≤ item.review_min
        ∧ 0 ≤ item.mock_min := by
  intro item hitem
  unfold distribute_minutes_over_days at hitem
  obtain ⟨d, hd, rfl⟩ := List.mem_map.mp hitem
  have hdlt : d < c.days_available.toNat := List.mem_range.mp hd
  obtain ⟨fA, fB, fC, fD⟩ := finalTable_spec L E R M c hD hL hE hR hM
  exact fB d (by rw [fA]; exact hdlt)

/-- Witness for C10 at the C3 scenario input. -/
theorem c10_buckets_never_negative_witness :
    ((1 : Int) ≤ 4 ∧ (∀ x ∈ ([2] : List Int), 0 ≤ x ∧ x < 4)
      ∧ (0 : Int) ≤ 700 ∧ (0 : Int) ≤ 50 ∧ (0 : Int) ≤ 30 ∧ (0 : Int) ≤ 20)
    ∧ (∀ item ∈ distribute_minutes_over_days 700 50 30 20 ⟨4, 240, 60, [2]⟩,
        0 ≤ item.learn_min ∧ 0 ≤ item.exercises_min ∧ 0 ≤ item.review_min
          ∧ 0 ≤ item.mock_min) :=
  ⟨by decide,
    c10_buckets_never_negative 700 50 30 20 ⟨4, 240, 60, [2]⟩ (by decide)
      (by decide) (by decide) (by decide) (by decide) (by decide)⟩

/-! Reductions for zero minutes and a disabled floor. -/

theorem planPass_zero (b : List Int) (maxd : Int) (k : Kind) (o sp : List Int)
    (t : List DayAlloc) : planPass b maxd k 0 o sp t = t := by
  unfold planPass
  rw [push_zero]
  simp

theorem waveMinutes_zero (W : Int) (i : Nat) : waveMinutes 0 W i = 0 := by
  unfold waveMinutes waveShare
  simp

theorem reviewFold_zero (b : List Int) (maxd D W0 : Int) :
    ∀ (ws : List (Nat × Int)) (t : List DayAlloc),
      ws.foldl (fun tt iw =>
        planPass b maxd Kind.review (waveMinutes 0 W0 iw.1) (around D iw.2)
          (daysIdxOf D) tt) t = t := by
  intro ws
  induction ws with
  | nil => intro t; rfl
  | cons iw rest ih =>
    intro t
    rw [List.foldl_cons, waveMinutes_zero, planPass_zero]
    exact ih t

theorem reviewPass_zero (b : List Int) (maxd D : Int) (t : List DayAlloc) :
    reviewPass b maxd 0 D t = t := by
  unfold reviewPass
  exact reviewFold_zero b maxd D _ _ t

theorem getD_out_of_range {α : Type} (l : List α) (i : Nat) (d0 : α)
    (h : l.length ≤ i) : l.getD i d0 = d0 := by
  induction l generalizing i with
  | nil => rfl
  | cons a as ih =>
    cases i with
    | zero => simp at h
    | succ n => simpa using ih n (by simpa using h)

theorem rebalanceStep_noop (b : List Int) (mind : Int) (scanRev : List Int)
    (t : List DayAlloc) (dc : Int) (hnn : NonNegT t) (hm : mind ≤ 0) :
    rebalanceStep b mind scanRev t dc = t := by
  unfold rebalanceStep
  split_ifs with h1 h2 h3
  · rfl
  · rfl
  · exfalso
    by_cases hrange : dc.toNat < t.length
    · have := daySum_nonneg _ (hnn dc.toNat hrange)
      omega
    · have hz : t.getD dc.toNat zeroAlloc = zeroAlloc :=
        getD_out_of_range t dc.toNat zeroAlloc (by omega)
      rw [hz] at h2
      exact h2 daySum_zeroAlloc
  · rfl

theorem rebalance_fold_noop (b : List Int) (mind : Int) (scanRev : List Int)
    (hm : mind ≤ 0) :
    ∀ (days : List Int) (t : List DayAlloc), NonNegT t →
      days.foldl (rebalanceStep b mind scanRev) t = t := by
  intro days
  induction days with
  | nil => intro t _; rfl
  | cons dc rest ih =>
    intro t hnn
    rw [List.foldl_cons, rebalanceStep_noop b mind _ t dc hnn hm]
    exact ih t hnn

theorem rebalance_noop (b : List Int) (mind : Int) (days : List Int)
    (t : List DayAlloc) (hnn : NonNegT t) (hm : mind ≤ 0) :
    rebalance b mind days t = t := by
  unfold rebalance
  exact rebalance_fold_noop b mind days.reverse hm days t hnn

/-! Sum bookkeeping helpers. -/

theorem tableSum_replicate (n : Nat) : tableSum (List.replicate n zeroAlloc) = 0 := by
  induction n with
  | zero => rfl
  | succ m ih => simpa [List.replicate, tableSum_cons, daySum_zeroAlloc] using ih

theorem sum_map_sub_distrib {α : Type} (l : List α) (f g : α → Int) :
    (l.map (fun x => f x - g x)).sum = (l.map f).sum - (l.map g).sum := by
  induction l with
  | nil => simp
  | cons a as ih => simp [ih]; ring

theorem daysIdx_map_sum (D : Int) (f : Nat → Int) :
    ((daysIdxOf D).map (fun d => f d.toNat)).sum
      = ((List.range D.toNat).map f).sum := by
  unfold daysIdxOf
  rw [List.map_map]
  refine congrArg List.sum ?_
  apply List.map_congr_left
  intro n _
  simp

/-! The mock order for at least two days is exactly the tail of the day list. -/

theorem filter_mem_drop (l : List Int) (hnd : l.Nodup) (n : Nat) :
    l.filter (fun d => decide (d ∈ l.drop n)) = l.drop n := by
  have hdisj : ∀ x ∈ l.take n, x ∉ l.drop n := by
    intro x hx
    exact fun hx2 => (List.disjoint_take_drop hnd (le_refl n)) hx hx2
  have h1 : (l.take n).filter (fun d => decide (d ∈ l.drop n)) = [] := by
    apply List.filter_eq_nil.mpr
    intro x hx
    simpa using hdisj x hx
  have h2 : (l.drop n).filter (fun d => decide (d ∈ l.drop n)) = l.drop n := by
    apply List.filter_eq_self.mpr
    intro x hx
    simpa using hx
  have hsplit : ((l.take n ++ l.drop n).filter (fun d => decide (d ∈ l.drop n)))
      = (l.take n).filter (fun d => decide (d ∈ l.drop n))
        ++ (l.drop n).filter (fun d => decide (d ∈ l.drop n)) :=
    List.filter_append _ _
  rw [List.take_append_drop] at hsplit
  rw [hsplit, h1, h2, List.nil_append]

theorem mem_drop_daysIdx (D : Int) (n : Nat) :
    ∀ x ∈ (daysIdxOf D).drop n, (n : Int) ≤ x ∧ 0 ≤ x ∧ x.toNat < D.toNat := by
  intro x hx
  have hmem := daysIdx_mem D x (List.mem_of_mem_drop hx)
  obtain ⟨i, hi, hget⟩ := List.getElem_of_mem hx
  have hlen : ((daysIdxOf D).drop n).length = D.toNat - n := by
    simp [daysIdx_length]
  have hbound : n + i < (daysIdxOf D).length := by
    rw [daysIdx_length]
    rw [hlen] at hi
    omega
  have hget2 : ((daysIdxOf D).drop n).get ⟨i, hi⟩ = (daysIdxOf D).get ⟨n + i, hbound⟩ :=
    List.getElem_drop _
  have hval : (daysIdxOf D).get ⟨n + i, hbound⟩ = ((n + i : Nat) : Int) := by
    unfold daysIdxOf
    simp
  have hget3 : ((daysIdxOf D).drop n).get ⟨i, hi⟩ = x := hget
  rw [hget2, hval] at hget3
  subst hget3
  refine ⟨by push_cast; omega, hmem⟩

theorem mockOrder_eq_drop (D : Int) (hD : 2 ≤ D) :
    mockOrderOf D = (daysIdxOf D).drop ((3 * D) / 5).toNat := by
  have hcut : (3 * D) / 5 < D := by omega
  have hcut0 : 0 ≤ (3 * D) / 5 := by omega
  have hlast : last40Of D = (daysIdxOf D).drop ((3 * D) / 5).toNat := by
    unfold last40Of
    rw [if_pos (by omega : 1 < D)]
  have hfilter : (daysIdxOf D).filter (fun d => decide (d ∈ last40Of D))
      = (daysIdxOf D).drop ((3 * D) / 5).toNat := by
    rw [hlast]
    exact filter_mem_drop (daysIdxOf D) (daysIdx_nodup D) _
  have hne : (daysIdxOf D).drop ((3 * D) / 5).toNat ≠ [] := by
    intro hnil
    have := congrArg List.length hnil
    rw [List.length_drop, daysIdx_length] at this
    simp at this
    omega
  unfold mockOrderOf
  rw [hfilter]
  rw [if_neg hne]

/-! Conservation of one pass when the full-day spill order can hold it. -/

theorem planPass_conserve (maxd : Int) (k : Kind) (m D : Int) (o : List Int)
    (t : List DayAlloc) (htlen : t.length = D.toNat)
    (ho : ∀ d ∈ o, 0 ≤ d ∧ d.toNat < t.length) (hm : 0 ≤ m)
    (hcap : tableSum t + m ≤ (D.toNat : Int) * maxd) :
    tableSum (planPass [] maxd k m o (daysIdxOf D) t) = tableSum t + m := by
  have h1 := push_sum [] maxd k o m t ho
  have hb1 := push_rem_bounds [] maxd k o m t hm
  unfold planPass
  split_ifs with h
  · have ht1len : (push [] maxd k m o t).1.length = D.toNat := by
      rw [push_length, htlen]
    have hsp : ∀ d ∈ daysIdxOf D,
        0 ≤ d ∧ d.toNat < (push [] maxd k m o t).1.length ∧ d ∉ ([] : List Int) := by
      intro d hd
      have := daysIdx_mem D d hd
      rw [ht1len]
      exact ⟨this.1, this.2, by simp⟩
    have hplain : ((daysIdxOf D).map (fun d => maxd
          - daySum ((push [] maxd k m o t).1.getD d.toNat zeroAlloc))).sum
        = (D.toNat : Int) * maxd - tableSum (push [] maxd k m o t).1 := by
      rw [sum_map_sub_distrib, sum_map_const_int, daysIdx_length]
      have hr := daysIdx_map_sum D
        (fun n => daySum ((push [] maxd k m o t).1.getD n zeroAlloc))
      have ht := tableSum_getD_eq_range (push [] maxd k m o t).1
      rw [ht1len] at ht
      rw [hr, ← ht]
    have hle : ((daysIdxOf D).map (fun d => maxd
          - daySum ((push [] maxd k m o t).1.getD d.toNat zeroAlloc))).sum
        ≤ ((daysIdxOf D).map (fun d => max 0 (maxd
          - daySum ((push [] maxd k m o t).1.getD d.toNat zeroAlloc)))).sum := by
      apply List.sum_le_sum
      intro d _
      exact le_max_right 0 _
    have hcap2 : (push [] maxd k m o t).2
        ≤ ((daysIdxOf D).map (fun d => max 0 (maxd
          - daySum ((push [] maxd k m o t).1.getD d.toNat zeroAlloc)))).sum := by
      omega
    have hc := push_complete [] maxd k (daysIdxOf D) (push [] maxd k m o t).2
      (push [] maxd k m o t).1 (le_of_lt h) hsp (daysIdx_nodup D) hcap2
    have h2 := push_sum [] maxd k (daysIdxOf D) (push [] maxd k m o t).2
      (push [] maxd k m o t).1
      (fun d hd => ⟨(daysIdx_mem D d hd).1, by
        rw [ht1len]
        exact (daysIdx_mem D d hd).2⟩)
    have hb2 := push_rem_bounds [] maxd k (daysIdxOf D) (push [] maxd k m o t).2
      (push [] maxd k m o t).1 (le_of_lt h)
    omega
  · omega

/-! Wave share arithmetic. -/

theorem waveSpill_eq_emod (R W : Int) (hW : 0 < W) :
    R - waveShare R W * W = R % W := by
  unfold waveShare
  have h := Int.ediv_add_emod R W
  rw [mul_comm W (R / W)] at h
  linarith

theorem waveMinutes_sum (R : Int) (n : Nat) (hn : 0 < n) (hR : 0 ≤ R) :
    ((List.range n).map (fun (i : Nat) => waveMinutes R (n : Int) i)).sum = R := by
  have hW : (0 : Int) < (n : Int) := by exact_mod_cast hn
  have hspill : R - waveShare R (n : Int) * (n : Int) = R % (n : Int) :=
    waveSpill_eq_emod R (n : Int) hW
  unfold waveMinutes
  rw [sum_map_add_distrib, sum_map_const_int]
  simp only [hspill]
  have h2 : 0 ≤ R % (n : Int) := Int.emod_nonneg R (by omega)
  have h1 : R % (n : Int) < (n : Int) := Int.emod_lt_of_pos R hW
  rw [sum_indicator_range n (R % (n : Int)) h2]
  rw [min_eq_left (by exact_mod_cast le_of_lt h1)]
  have h := Int.ediv_add_emod R (n : Int)
  rw [mul_comm ((n : Int)) (R / (n : Int))] at h
  unfold waveShare
  simp only [List.length_range]
  linarith

/-! Conservation and bucket locality of the review fold. -/

theorem reviewFold_get_ne_kind (b : List Int) (maxd R D W0 : Int) :
    ∀ (ws : List (Nat × Int)) (t : List DayAlloc) (j : Nat) (k2 : Kind),
      k2 ≠ Kind.review →
      (((ws.foldl (fun tt iw =>
          planPass b maxd Kind.review (waveMinutes R W0 iw.1) (around D iw.2)
            (daysIdxOf D) tt) t)).getD j zeroAlloc).get k2
        = (t.getD j zeroAlloc).get k2 := by
  intro ws
  induction ws with
  | nil => intro t j k2 _; rfl
  | cons iw rest ih =>
    intro t j k2 hk
    rw [List.foldl_cons, ih _ j k2 hk, planPass_get_ne_kind _ _ _ _ _ _ _ j k2 hk]

theorem reviewFold_conserve (maxd R D W0 : Int) :
    ∀ (ws : List (Nat × Int)) (t : List DayAlloc),
      t.length = D.toNat →
      (∀ iw ∈ ws, ∀ x ∈ around D iw.2, 0 ≤ x ∧ x.toNat < D.toNat) →
      (∀ iw ∈ ws, 0 ≤ waveMinutes R W0 iw.1) →
      tableSum t + ((ws.map (fun iw => waveMinutes R W0 iw.1)).sum)
        ≤ (D.toNat : Int) * maxd →
      tableSum (ws.foldl (fun tt iw =>
          planPass [] maxd Kind.review (waveMinutes R W0 iw.1) (around D iw.2)
            (daysIdxOf D) tt) t)
        = tableSum t + ((ws.map (fun iw => waveMinutes R W0 iw.1)).sum) := by
  intro ws
  induction ws with
  | nil => intro t _ _ _ _; simp
  | cons iw rest ih =>
    intro t htlen hwin hwm hcap
    have hw := hwin iw (by simp)
    have hm := hwm iw (by simp)
    have hrest1 : ∀ x ∈ rest, ∀ y ∈ around D x.2, 0 ≤ y ∧ y.toNat < D.toNat :=
      fun x hx => hwin x (by simp [hx])
    have hrest2 : ∀ x ∈ rest, 0 ≤ waveMinutes R W0 x.1 :=
      fun x hx => hwm x (by simp [hx])
    have hrestsum : 0 ≤ (rest.map (fun x => waveMinutes R W0 x.1)).sum := by
      apply List.sum_nonneg
      intro x hx
      obtain ⟨y, hy, rfl⟩ := List.mem_map.mp hx
      exact hrest2 y hy
    rw [List.map_cons, List.sum_cons] at hcap ⊢
    rw [List.foldl_cons]
    have hstep := planPass_conserve maxd Kind.review (waveMinutes R W0 iw.1) D
      (around D iw.2) t htlen
      (fun x hx => ⟨(hw x hx).1, by rw [htlen]; exact (hw x hx).2⟩) hm
      (by omega)
    have hlen2 : (planPass [] maxd Kind.review (waveMinutes R W0 iw.1)
        (around D iw.2) (daysIdxOf D) t).length = D.toNat := by
      rw [planPass_length, htlen]
    rw [ih _ hlen2 hrest1 hrest2 (by omega), hstep]
    ring

/-- C7 (amended): the mock pass cut is the float truncation int(D*0.6),
namely floor(3D/5), not ceil(0.6 D): for at least two days the preferred
mock order is exactly days_idx[(3D/5):], and when the mock budget fits into
the capacity of that tail (and the other budgets are zero, with no floor),
every day before the cut receives zero mock minutes and the whole budget is
placed. -/
theorem c7_mock_tail_floor_cut (D maxd M : Int)
    (hD : 2 ≤ D) (hmaxd : 0 ≤ maxd) (hM : 0 ≤ M)
    (hcap : M ≤ (D - (3 * D) / 5) * maxd) :
    mockOrderOf D = (daysIdxOf D).drop ((3 * D) / 5).toNat
    ∧ (∀ item ∈ distribute_minutes_over_days 0 0 0 M ⟨D, maxd, 0, []⟩,
        item.day_index < (3 * D) / 5 → item.mock_min = 0)
    ∧ ((distribute_minutes_over_days 0 0 0 M ⟨D, maxd, 0, []⟩).map
        (fun p => p.mock_min)).sum = M := by
  have hD1 : (1 : Int) ≤ D := by omega
  have hcut0 : 0 ≤ (3 * D) / 5 := by omega
  have hcutD : (3 * D) / 5 < D := by omega
  have hmo := mockOrder_eq_drop D hD
  refine ⟨hmo, ?_⟩
  have ht0len : (List.replicate D.toNat zeroAlloc).length = D.toNat := by simp
  have hpm : passesTable 0 0 0 M ⟨D, maxd, 0, []⟩
      = planPass [] maxd Kind.mock M (mockOrderOf D) (daysRevOf D)
          (List.replicate D.toNat zeroAlloc) := by
    unfold passesTable preMockTable
    rw [planPass_zero, planPass_zero, reviewPass_zero]
  have homem := mem_drop_daysIdx D ((3 * D) / 5).toNat
  rw [hmo] at hpm
  have hoh : ∀ d ∈ (daysIdxOf D).drop ((3 * D) / 5).toNat,
      0 ≤ d ∧ d.toNat < (List.replicate D.toNat zeroAlloc).length := by
    intro d hd
    have := homem d hd
    rw [ht0len]
    exact ⟨this.2.1, this.2.2⟩
  have hsum1 := push_sum [] maxd Kind.mock ((daysIdxOf D).drop ((3 * D) / 5).toNat)
    M (List.replicate D.toNat zeroAlloc) hoh
  have hbnd := push_rem_bounds [] maxd Kind.mock
    ((daysIdxOf D).drop ((3 * D) / 5).toNat) M (List.replicate D.toNat zeroAlloc) hM
  have hcomplete : (push [] maxd Kind.mock M
      ((daysIdxOf D).drop ((3 * D) / 5).toNat)
      (List.replicate D.toNat zeroAlloc)).2 ≤ 0 := by
    apply push_complete [] maxd Kind.mock _ M _ hM
    · intro d hd
      have := homem d hd
      rw [ht0len]
      exact ⟨this.2.1, this.2.2, by simp⟩
    · exact List.Nodup.sublist (List.drop_sublist _ _) (daysIdx_nodup D)
    · have hconst : (((daysIdxOf D).drop ((3 * D) / 5).toNat).map
          (fun d => max 0 (maxd - daySum ((List.replicate D.toNat
            zeroAlloc).getD d.toNat zeroAlloc)))).sum
          = (((daysIdxOf D).drop ((3 * D) / 5).toNat).length : Int) * maxd := by
        rw [← sum_map_const_int (((daysIdxOf D).drop ((3 * D) / 5).toNat)) maxd]
        refine congrArg List.sum ?_
        apply List.map_congr_left
        intro d hd
        have hmem := homem d hd
        rw [getD_replicate _ _ _ _ hmem.2.2, daySum_zeroAlloc]
        omega
      rw [hconst, List.length_drop, daysIdx_length]
      have hcast : ((D.toNat - ((3 * D) / 5).toNat : Nat) : Int)
          = D - (3 * D) / 5 := by omega
      rw [hcast]
      exact hcap
  have hrem0 : (push [] maxd Kind.mock M
      ((daysIdxOf D).drop ((3 * D) / 5).toNat)
      (List.replicate D.toNat zeroAlloc)).2 = 0 := by omega
  have hplan : planPass [] maxd Kind.mock M
      ((daysIdxOf D).drop ((3 * D) / 5).toNat) (daysRevOf D)
      (List.replicate D.toNat zeroAlloc)
      = (push [] maxd Kind.mock M ((daysIdxOf D).drop ((3 * D) / 5).toNat)
          (List.replicate D.toNat zeroAlloc)).1 := by
    unfold planPass
    rw [if_neg (by omega)]
  rw [hplan] at hpm
  have hnnP : NonNegT (passesTable 0 0 0 M ⟨D, maxd, 0, []⟩) :=
    (passesTable_spec 0 0 0 M ⟨D, maxd, 0, []⟩ hD1 (le_refl 0) (le_refl 0)
      (le_refl 0) hM).2.1
  have hfin : finalTable 0 0 0 M ⟨D, maxd, 0, []⟩
      = passesTable 0 0 0 M ⟨D, maxd, 0, []⟩ := by
    unfold finalTable
    exact rebalance_noop _ _ _ _ hnnP (le_refl 0)
  constructor
  · intro item hitem hidx
    unfold distribute_minutes_over_days at hitem
    obtain ⟨d, hd, rfl⟩ := List.mem_map.mp hitem
    simp only at hidx ⊢
    rw [hfin, hpm]
    have hdcut : d < ((3 * D) / 5).toNat := by omega
    rw [push_untouched [] maxd Kind.mock _ M _ d ?_]
    · rw [getD_replicate _ _ _ _ ?_]
      · rfl
      · have := List.mem_range.mp hd
        exact this
    · intro x hx
      have := homem x hx
      omega
  · unfold distribute_minutes_over_days
    rw [List.map_map]
    have hms : ∀ d : Nat,
        ((finalTable 0 0 0 M ⟨D, maxd, 0, []⟩).getD d zeroAlloc).mock
          = daySum ((finalTable 0 0 0 M ⟨D, maxd, 0, []⟩).getD d zeroAlloc) := by
      intro d
      have hz : ∀ k2 : Kind, k2 ≠ Kind.mock →
          ((finalTable 0 0 0 M ⟨D, maxd, 0, []⟩).getD d zeroAlloc).get k2 = 0 := by
        intro k2 hk2
        rw [hfin, hpm]
        rw [push_get_ne_kind [] maxd Kind.mock _ M _ d k2 hk2]
        by_cases hrange : d < D.toNat
        · rw [getD_replicate _ _ _ _ hrange]
          cases k2 <;> rfl
        · rw [getD_out_of_range _ _ _ (by simpa using hrange)]
          cases k2 <;> rfl
      have h1 := hz Kind.learn (by decide)
      have h2 := hz Kind.exo (by decide)
      have h3 := hz Kind.review (by decide)
      simp only [DayAlloc.get] at h1 h2 h3
      unfold daySum
      omega
    have hmap : (List.range D.toNat).map
        ((fun p : PlanItem => p.mock_min) ∘ (fun (d : Nat) =>
          (⟨(d : Int), none,
            ((finalTable 0 0 0 M ⟨D, maxd, 0, []⟩).getD d zeroAlloc).learn,
            ((finalTable 0 0 0 M ⟨D, maxd, 0, []⟩).getD d zeroAlloc).exo,
            ((finalTable 0 0 0 M ⟨D, maxd, 0, []⟩).getD d zeroAlloc).review,
            ((finalTable 0 0 0 M ⟨D, maxd, 0, []⟩).getD d zeroAlloc).mock⟩ :
              PlanItem)))
        = (List.range D.toNat).map (fun (d : Nat) =>
            daySum ((finalTable 0 0 0 M ⟨D, maxd, 0, []⟩).getD d zeroAlloc)) := by
      apply List.map_congr_left
      intro d _
      exact hms d
    rw [hmap]
    have hlenF : (finalTable 0 0 0 M ⟨D, maxd, 0, []⟩).length = D.toNat := by
      rw [hfin, hpm, push_length, ht0len]
    have htS := tableSum_getD_eq_range (finalTable 0 0 0 M ⟨D, maxd, 0, []⟩)
    rw [hlenF] at htS
    rw [← htS, hfin, hpm, hsum1, hrem0, tableSum_replicate]
    ring

/-- Witness for C7 at D=7, cap 10, mock budget 5: the cut is day 4 and all
mock minutes land in the tail. -/
theorem c7_mock_tail_floor_cut_witness :
    ((2 : Int) ≤ 7 ∧ (0 : Int) ≤ 10 ∧ (0 : Int) ≤ 5
      ∧ (5 : Int) ≤ (7 - (3 * 7) / 5) * 10)
    ∧ (mockOrderOf 7 = (daysIdxOf 7).drop ((3 * (7 : Int)) / 5).toNat
      ∧ (∀ item ∈ distribute_minutes_over_days 0 0 0 5 ⟨7, 10, 0, []⟩,
          item.day_index < (3 * 7) / 5 → item.mock_min = 0)
      ∧ ((distribute_minutes_over_days 0 0 0 5 ⟨7, 10, 0, []⟩).map
          (fun p => p.mock_min)).sum = 5) :=
  ⟨by decide,
    c7_mock_tail_floor_cut 7 10 5 (by decide) (by decide) (by decide) (by decide)⟩

/-- C7 counterexample: at D=7 the code cut int(7*0.6)=4 differs from the
claim cut ceil(0.6*7)=5: the code places the 5 mock minutes on day 4, the
claim version places them on day 5 (the days 5 and 6 have capacity 20, so
under the claim no spillover can reach day 4). -/
theorem c7_counterexample_floor_not_ceil :
    distribute_minutes_over_days 0 0 0 5 ⟨7, 10, 0, []⟩
        ≠ distribute_ceilMock 0 0 0 5 ⟨7, 10, 0, []⟩
    ∧ (distribute_minutes_over_days 0 0 0 5 ⟨7, 10, 0, []⟩).map (fun p => p.mock_min)
        = [0, 0, 0, 0, 5, 0, 0]
    ∧ (distribute_ceilMock 0 0 0 5 ⟨7, 10, 0, []⟩).map (fun p => p.mock_min)
        = [0, 0, 0, 0, 0, 5, 0] := by
  decide

/-! Explicit case form of the wave anchors. -/

theorem reviewWaves_eq_cases (D : Int) :
    reviewWaves D = if D ≤ 1 then [0] else if D ≤ 3 then [1]
      else if D ≤ 7 then [1, 3] else [1, 3, 7] := by
  unfold reviewWaves
  by_cases h2 : 2 ≤ D
  · by_cases h4 : 4 ≤ D
    · by_cases h8 : 8 ≤ D
      · rw [if_pos h2, if_pos h4, if_pos h8, if_neg (by simp)]
        rw [if_neg (by omega), if_neg (by omega), if_neg (by omega)]
        have e1 : min 1 (D - 1) = 1 := by omega
        have e2 : min 3 (D - 1) = 3 := by omega
        have e3 : min 7 (D - 1) = 7 := by omega
        rw [e1, e2, e3]
        rfl
      · rw [if_pos h2, if_pos h4, if_neg h8, if_neg (by simp)]
        rw [if_neg (by omega), if_neg (by omega), if_pos (by omega)]
        have e1 : min 1 (D - 1) = 1 := by omega
        have e2 : min 3 (D - 1) = 3 := by omega
        rw [e1, e2]
        rfl
    · have h8 : ¬ 8 ≤ D := by omega
      rw [if_pos h2, if_neg h4, if_neg h8, if_neg (by simp)]
      rw [if_neg (by omega), if_pos (by omega)]
      have e1 : min 1 (D - 1) = 1 := by omega
      rw [e1]
      rfl
  · have h4 : ¬ 4 ≤ D := by omega
    have h8 : ¬ 8 ≤ D := by omega
    rw [if_neg h2, if_neg h4, if_neg h8, if_pos (by simp)]
    rw [if_pos (by omega)]

theorem reviewWaves_count (D : Int) :
    (reviewWaves D).length = if D ≤ 2 then 1
      else (([1, 3, 7] : List Int).filter (fun a => decide (a ≤ D - 1))).length := by
  rw [reviewWaves_eq_cases]
  by_cases h1 : D ≤ 1
  · rw [if_pos h1, if_pos (by omega)]
    rfl
  · by_cases h3 : D ≤ 3
    · rw [if_neg h1, if_pos h3]
      by_cases h2 : D ≤ 2
      · rw [if_pos h2]
        rfl
      · rw [if_neg h2]
        have e1 : decide ((1 : Int) ≤ D - 1) = true := by
          simp only [decide_eq_true_eq]
          omega
        have e2 : decide ((3 : Int) ≤ D - 1) = false := by
          simp only [decide_eq_false_iff_not]
          omega
        have e3 : decide ((7 : Int) ≤ D - 1) = false := by
          simp only [decide_eq_false_iff_not]
          omega
        simp [List.filter_cons, e1, e2, e3]
    · by_cases h7 : D ≤ 7
      · rw [if_neg h1, if_neg h3, if_pos h7, if_neg (by omega)]
        have e1 : decide ((1 : Int) ≤ D - 1) = true := by
          simp only [decide_eq_true_eq]
          omega
        have e2 : decide ((3 : Int) ≤ D - 1) = true := by
          simp only [decide_eq_true_eq]
          omega
        have e3 : decide ((7 : Int) ≤ D - 1) = false := by
          simp only [decide_eq_false_iff_not]
          omega
        simp [List.filter_cons, e1, e2, e3]
      · rw [if_neg h1, if_neg h3, if_neg h7, if_neg (by omega)]
        have e1 : decide ((1 : Int) ≤ D - 1) = true := by
          simp only [decide_eq_true_eq]
          omega
        have e2 : decide ((3 : Int) ≤ D - 1) = true := by
          simp only [decide_eq_true_eq]
          omega
        have e3 : decide ((7 : Int) ≤ D - 1) = true := by
          simp only [decide_eq_true_eq]
          omega
        simp [List.filter_cons, e1, e2, e3]

theorem reviewWaves_filter (D : Int) (h : 2 < D) :
    reviewWaves D = ([1, 3, 7] : List Int).filter (fun a => decide (a ≤ D - 1)) := by
  rw [reviewWaves_eq_cases]
  have e1 : decide ((1 : Int) ≤ D - 1) = true := by
    simp only [decide_eq_true_eq]
    omega
  by_cases h3 : D ≤ 3
  · rw [if_neg (by omega), if_pos h3]
    have e2 : decide ((3 : Int) ≤ D - 1) = false := by
      simp only [decide_eq_false_iff_not]
      omega
    have e3 : decide ((7 : Int) ≤ D - 1) = false := by
      simp only [decide_eq_false_iff_not]
      omega
    simp [List.filter_cons, e1, e2, e3]
  · by_cases h7 : D ≤ 7
    · rw [if_neg (by omega), if_neg h3, if_pos h7]
      have e2 : decide ((3 : Int) ≤ D - 1) = true := by
        simp only [decide_eq_true_eq]
        omega
      have e3 : decide ((7 : Int) ≤ D - 1) = false := by
        simp only [decide_eq_false_iff_not]
        omega
      simp [List.filter_cons, e1, e2, e3]
    · rw [if_neg (by omega), if_neg h3, if_neg h7]
      have e2 : decide ((3 : Int) ≤ D - 1) = true := by
        simp only [decide_eq_true_eq]
        omega
      have e3 : decide ((7 : Int) ≤ D - 1) = true := by
        simp only [decide_eq_true_eq]
        omega
      simp [List.filter_cons, e1, e2, e3]

theorem waveMinutes_emod (R W : Int) (hW : 0 < W) (i : Nat) :
    waveMinutes R W i = R / W + (if (i : Int) < R % W then 1 else 0) := by
  unfold waveMinutes
  rw [waveSpill_eq_emod R W hW]
  rfl

theorem waveMinutes_antitone (R W : Int) (i j : Nat) (hij : i ≤ j) :
    waveMinutes R W j ≤ waveMinutes R W i := by
  unfold waveMinutes
  have hc : ((i : Int)) ≤ ((j : Int)) := by exact_mod_cast hij
  split_ifs <;> omega

theorem waveMinutes_values (R W : Int) (i : Nat) :
    waveMinutes R W i = waveShare R W ∨ waveMinutes R W i = waveShare R W + 1 := by
  unfold waveMinutes
  split_ifs <;> omega

theorem reviewOnly_conserve (D maxd R : Int) (hD : 1 ≤ D) (hR : 0 ≤ R)
    (hcap : R ≤ D * maxd) :
    (∀ item ∈ distribute_minutes_over_days 0 0 R 0 ⟨D, maxd, 0, []⟩,
        item.learn_min = 0 ∧ item.exercises_min = 0 ∧ item.mock_min = 0)
    ∧ ((distribute_minutes_over_days 0 0 R 0 ⟨D, maxd, 0, []⟩).map
        (fun p => p.review_min)).sum = R := by
  have ht0len : (List.replicate D.toNat zeroAlloc).length = D.toNat := by simp
  have hpass : passesTable 0 0 R 0 ⟨D, maxd, 0, []⟩
      = reviewPass [] maxd R D (List.replicate D.toNat zeroAlloc) := by
    unfold passesTable preMockTable
    rw [planPass_zero, planPass_zero, planPass_zero]
  have hnnP : NonNegT (passesTable 0 0 R 0 ⟨D, maxd, 0, []⟩) :=
    (passesTable_spec 0 0 R 0 ⟨D, maxd, 0, []⟩ hD (le_refl 0) (le_refl 0) hR
      (le_refl 0)).2.1
  have hfin : finalTable 0 0 R 0 ⟨D, maxd, 0, []⟩
      = passesTable 0 0 R 0 ⟨D, maxd, 0, []⟩ := by
    unfold finalTable
    exact rebalance_noop _ _ _ _ hnnP (le_refl 0)
  have hWpos : 0 < (reviewWaves D).length := reviewWaves_length_pos D
  have hsum_waves : (((reviewWaves D).enum).map
      (fun iw => waveMinutes R (((reviewWaves D).length : Int)) iw.1)).sum = R := by
    have hmm : ((reviewWaves D).enum).map
        (fun iw => waveMinutes R (((reviewWaves D).length : Int)) iw.1)
        = (List.range (reviewWaves D).length).map
            (fun (i : Nat) => waveMinutes R (((reviewWaves D).length : Int)) i) := by
      conv_rhs => rw [← List.enum_map_fst (reviewWaves D)]
      rw [List.map_map]
      rfl
    rw [hmm]
    exact waveMinutes_sum R (reviewWaves D).length hWpos hR
  have hDcast : ((D.toNat : Int)) = D := Int.toNat_of_nonneg (by omega)
  have hcons : tableSum (reviewPass [] maxd R D (List.replicate D.toNat zeroAlloc))
      = R := by
    unfold reviewPass
    have h := reviewFold_conserve maxd R D (((reviewWaves D).length : Int))
      ((reviewWaves D).enum) (List.replicate D.toNat zeroAlloc) ht0len
      (fun iw hiw => by
        have h2 := reviewWaves_mem D hD iw.2 (enum_snd_mem _ iw hiw)
        exact around_mem D iw.2 hD h2.1 h2.2)
      (fun iw _ => waveMinutes_nonneg R _ hR (by exact_mod_cast hWpos) iw.1)
      (by
        rw [tableSum_replicate, hsum_waves, hDcast]
        omega)
    rw [h, hsum_waves, tableSum_replicate]
    ring
  have hkind : ∀ (d : Nat) (k2 : Kind), k2 ≠ Kind.review →
      ((finalTable 0 0 R 0 ⟨D, maxd, 0, []⟩).getD d zeroAlloc).get k2 = 0 := by
    intro d k2 hk2
    rw [hfin, hpass]
    unfold reviewPass
    rw [reviewFold_get_ne_kind [] maxd R D _ _ _ d k2 hk2]
    by_cases hrange : d < D.toNat
    · rw [getD_replicate _ _ _ _ hrange]
      cases k2 <;> rfl
    · rw [getD_out_of_range _ _ _ (by simpa using hrange)]
      cases k2 <;> rfl
  constructor
  · intro item hitem
    unfold distribute_minutes_over_days at hitem
    obtain ⟨d, hd, rfl⟩ := List.mem_map.mp hitem
    have h1 := hkind d Kind.learn (by decide)
    have h2 := hkind d Kind.exo (by decide)
    have h3 := hkind d Kind.mock (by decide)
    simp only [DayAlloc.get] at h1 h2 h3
    exact ⟨h1, h2, h3⟩
  · unfold distribute_minutes_over_days
    rw [List.map_map]
    have hms : ∀ d : Nat,
        ((finalTable 0 0 R 0 ⟨D, maxd, 0, []⟩).getD d zeroAlloc).review
          = daySum ((finalTable 0 0 R 0 ⟨D, maxd, 0, []⟩).getD d zeroAlloc) := by
      intro d
      have h1 := hkind d Kind.learn (by decide)
      have h2 := hkind d Kind.exo (by decide)
      have h3 := hkind d Kind.mock (by decide)
      simp only [DayAlloc.get] at h1 h2 h3
      unfold daySum
      omega
    have hmap : (List.range D.toNat).map
        ((fun p : PlanItem => p.review_min) ∘ (fun (d : Nat) =>
          (⟨(d : Int), none,
            ((finalTable 0 0 R 0 ⟨D, maxd, 0, []⟩).getD d zeroAlloc).learn,
            ((finalTable 0 0 R 0 ⟨D, maxd, 0, []⟩).getD d zeroAlloc).exo,
            ((finalTable 0 0 R 0 ⟨D, maxd, 0, []⟩).getD d zeroAlloc).review,
            ((finalTable 0 0 R 0 ⟨D, maxd, 0, []⟩).getD d zeroAlloc).mock⟩ :
              PlanItem)))
        = (List.range D.toNat).map (fun (d : Nat) =>
            daySum ((finalTable 0 0 R 0 ⟨D, maxd, 0, []⟩).getD d zeroAlloc)) := by
      apply List.map_congr_left
      intro d _
      exact hms d
    rw [hmap]
    have hlenF : (finalTable 0 0 R 0 ⟨D, maxd, 0, []⟩).length = D.toNat := by
      rw [hfin, hpass]
      rw [(reviewPass_spec [] maxd R D hD hR
        (List.replicate D.toNat zeroAlloc)).1, ht0len]
    have htS := tableSum_getD_eq_range (finalTable 0 0 R 0 ⟨D, maxd, 0, []⟩)
    rw [hlenF] at htS
    rw [← htS, hfin, hpass, hcons]

/-- C8: the review pass splits the budget into W waves, W = 1 when D ≤ 2
and otherwise one wave per anchor among 1, 3, 7 that exists in [0, D-1];
the wave shares are floor(R/W) plus one extra minute for the first
R mod W waves, so they sum to R, differ by at most one, and are
non-increasing; each wave window is [anchor-1, anchor, anchor+1] clamped to
[0, D-1] with duplicates removed keeping order; and in a review-only run
with enough total capacity every minute of the budget is placed in the
review bucket (first fit in the window, leftover spilled forward over all
days). -/
theorem c8_review_waves_shares_windows (D R : Int) (hD : 1 ≤ D) (hR : 0 ≤ R) :
    ((reviewWaves D).length = if D ≤ 2 then 1
        else (([1, 3, 7] : List Int).filter (fun a => decide (a ≤ D - 1))).length)
    ∧ (2 < D →
        reviewWaves D = ([1, 3, 7] : List Int).filter (fun a => decide (a ≤ D - 1)))
    ∧ ((List.range (reviewWaves D).length).map
        (fun (i : Nat) => waveMinutes R (((reviewWaves D).length : Int)) i)).sum = R
    ∧ (∀ i : Nat, waveMinutes R (((reviewWaves D).length : Int)) i
        = R / (((reviewWaves D).length : Int))
          + (if (i : Int) < R % (((reviewWaves D).length : Int)) then 1 else 0))
    ∧ (∀ i j : Nat, i ≤ j →
        waveMinutes R (((reviewWaves D).length : Int)) j
          ≤ waveMinutes R (((reviewWaves D).length : Int)) i)
    ∧ (∀ i : Nat, waveMinutes R (((reviewWaves D).length : Int)) i
        = R / (((reviewWaves D).length : Int))
        ∨ waveMinutes R (((reviewWaves D).length : Int)) i
          = R / (((reviewWaves D).length : Int)) + 1)
    ∧ (∀ a ∈ reviewWaves D,
        around D a
          = [max 0 (min (D - 1) (a - 1))]
            ++ (if max 0 (min (D - 1) a) = max 0 (min (D - 1) (a - 1)) then []
                else [max 0 (min (D - 1) a)])
            ++ (if max 0 (min (D - 1) (a + 1)) = max 0 (min (D - 1) (a - 1))
                  ∨ max 0 (min (D - 1) (a + 1)) = max 0 (min (D - 1) a) then []
                else [max 0 (min (D - 1) (a + 1))]))
    ∧ (∀ maxd : Int, R ≤ D * maxd →
        (∀ item ∈ distribute_minutes_over_days 0 0 R 0 ⟨D, maxd, 0, []⟩,
            item.learn_min = 0 ∧ item.exercises_min = 0 ∧ item.mock_min = 0)
        ∧ ((distribute_minutes_over_days 0 0 R 0 ⟨D, maxd, 0, []⟩).map
            (fun p => p.review_min)).sum = R) := by
  have hWpos : 0 < (reviewWaves D).length := reviewWaves_length_pos D
  have hWcast : (0 : Int) < ((reviewWaves D).length : Int) := by exact_mod_cast hWpos
  refine ⟨reviewWaves_count D, reviewWaves_filter D, ?_, ?_, ?_, ?_, ?_, ?_⟩
  · exact waveMinutes_sum R (reviewWaves D).length hWpos hR
  · intro i
    exact waveMinutes_emod R _ hWcast i
  · intro i j hij
    exact waveMinutes_antitone R _ i j hij
  · intro i
    have h := waveMinutes_values R (((reviewWaves D).length : Int)) i
    simpa [waveShare] using h
  · intro a ha
    obtain ⟨ha0, ha1⟩ := reviewWaves_mem D hD a ha
    have e1 : max 0 (min (D - 1) (a - 1)) = max 0 (a - 1) := by omega
    have e2 : max 0 (min (D - 1) a) = a := by omega
    have e3 : max 0 (min (D - 1) (a + 1)) = min (D - 1) (a + 1) := by omega
    rw [e1, e2, e3]
    rfl
  · intro maxd hcap
    exact reviewOnly_conserve D maxd R hD hR hcap

/-- Witness for C8 at D = 5, R = 7 (two waves at anchors 1 and 3, shares
4 and 3), with the conservation part at cap 100. -/
theorem c8_review_waves_shares_windows_witness :
    ((1 : Int) ≤ 5 ∧ (0 : Int) ≤ 7)
    ∧ (((reviewWaves 5).length = if (5 : Int) ≤ 2 then 1
          else (([1, 3, 7] : List Int).filter (fun a => decide (a ≤ 5 - 1))).length)
      ∧ (2 < (5 : Int) →
          reviewWaves 5 = ([1, 3, 7] : List Int).filter (fun a => decide (a ≤ 5 - 1)))
      ∧ ((List.range (reviewWaves 5).length).map
          (fun (i : Nat) => waveMinutes 7 (((reviewWaves 5).length : Int)) i)).sum = 7
      ∧ (∀ i : Nat, waveMinutes 7 (((reviewWaves 5).length : Int)) i
          = 7 / (((reviewWaves 5).length : Int))
            + (if (i : Int) < 7 % (((reviewWaves 5).length : Int)) then 1 else 0))
      ∧ (∀ i j : Nat, i ≤ j →
          waveMinutes 7 (((reviewWaves 5).length : Int)) j
            ≤ waveMinutes 7 (((reviewWaves 5).length : Int)) i)
      ∧ (∀ i : Nat, waveMinutes 7 (((reviewWaves 5).length : Int)) i
          = 7 / (((reviewWaves 5).length : Int))
          ∨ waveMinutes 7 (((reviewWaves 5).length : Int)) i
            = 7 / (((reviewWaves 5).length : Int)) + 1)
      ∧ (∀ a ∈ reviewWaves 5,
          around 5 a
            = [max 0 (min (5 - 1) (a - 1))]
              ++ (if max 0 (min (5 - 1) a) = max 0 (min (5 - 1) (a - 1)) then []
                  else [max 0 (min (5 - 1) a)])
              ++ (if max 0 (min (5 - 1) (a + 1)) = max 0 (min (5 - 1) (a - 1))
                    ∨ max 0 (min (5 - 1) (a + 1)) = max 0 (min (5 - 1) a) then []
                  else [max 0 (min (5 - 1) (a + 1))]))
      ∧ (∀ maxd : Int, (7 : Int) ≤ 5 * maxd →
          (∀ item ∈ distribute_minutes_over_days 0 0 7 0 ⟨5, maxd, 0, []⟩,
              item.learn_min = 0 ∧ item.exercises_min = 0 ∧ item.mock_min = 0)
          ∧ ((distribute_minutes_over_days 0 0 7 0 ⟨5, maxd, 0, []⟩).map
              (fun p => p.review_min)).sum = 7)) :=
  ⟨⟨by decide, by decide⟩,
    c8_review_waves_shares_windows 5 7 (by decide) (by decide)⟩
